import Mathlib

/-!
# streamingtrades: per-symbol trade statistics (`src/trade.cpp`)

A shallow embedding of `trade.cpp` (`Statistics`, `TradeEntry`, `Storage`,
`StatisticsCalculator`, `Parser`, `Outputter`) and theorems about it.

Machine integers:
* `uint64_t` values are natural numbers below `2^64`; unsigned arithmetic
  is reduced modulo `2^64`.
* `int` is the 32-bit two's-complement integer of the usual targets.  A
  signed operation whose mathematical result leaves `[-2^31, 2^31)` is
  undefined in ISO C++; the embedding gives it the wrapped value that the
  machine instruction produces (`wrapInt`).
* A division by zero has no result: `cleanup` returns `none` there.

`std::unordered_map` is an association list with at most one entry per
key; the order of the list stands for the unspecified iteration order.
-/

namespace streamingtrade

/-! ## Machine integers -/

/-- Value of a mathematical integer stored in a 32-bit two's-complement `int`. -/
def wrapInt (i : Int) : Int := (i + 2147483648) % 4294967296 - 2147483648

/-- Conversion of an integer to `uint64_t` (reduction modulo `2^64`). -/
def toUInt64 (i : Int) : Nat := (i % 18446744073709551616).toNat

/-- Range of `int`. -/
def isInt (i : Int) : Prop := -2147483648 ≤ i ∧ i ≤ 2147483647

/-- Range of `uint64_t`. -/
def isUInt64 (n : Nat) : Prop := n < 18446744073709551616

instance (i : Int) : Decidable (isInt i) := by unfold isInt; infer_instance

instance (n : Nat) : Decidable (isUInt64 n) := by unfold isUInt64; infer_instance

/-! ## Data model -/

/-- Class `Statistics` (lines 10-26): the running statistic of one symbol. -/
structure Statistics where
  lastTimestamp_ : Nat
  maxTimeGap_ : Nat
  maxTradePrice_ : Int
  totalVolume_ : Int
  weightedAvgPrice_ : Nat
  deriving DecidableEq, Repr

/-- Constructor `Statistics(ts, qty, price)` (lines 12-16): `maxTimeGap_`
keeps its default `0`; the product `totalVolume_ * maxTradePrice_` is an
`int` product, converted to `uint64_t` on assignment. -/
def Statistics.ctor (ts : Nat) (qty price : Int) : Statistics :=
  { lastTimestamp_ := ts
    maxTimeGap_ := 0
    maxTradePrice_ := price
    totalVolume_ := qty
    weightedAvgPrice_ := toUInt64 (wrapInt (qty * price)) }

/-- Every field of the statistic lies in the range of its C++ type. -/
def Statistics.WellTyped (st : Statistics) : Prop :=
  isUInt64 st.lastTimestamp_ ∧ isUInt64 st.maxTimeGap_ ∧ isInt st.maxTradePrice_ ∧
    isInt st.totalVolume_ ∧ isUInt64 st.weightedAvgPrice_

instance (st : Statistics) : Decidable st.WellTyped := by
  unfold Statistics.WellTyped; infer_instance

/-- Class `TradeEntry` (lines 28-41): one trade record. -/
structure TradeEntry where
  timestamp_ : Nat
  symbol_ : String
  price_ : Int
  quantity_ : Int
  deriving DecidableEq, Repr

/-- Every field of the record lies in the range of its C++ type. -/
def TradeEntry.WellTyped (e : TradeEntry) : Prop :=
  isUInt64 e.timestamp_ ∧ isInt e.price_ ∧ isInt e.quantity_

instance (e : TradeEntry) : Decidable e.WellTyped := by
  unfold TradeEntry.WellTyped; infer_instance

/-- Constructor `TradeEntry(ts, sym, qty, price)` (lines 30-32). -/
def TradeEntry.ctor (ts : Nat) (sym : String) (qty price : Int) : TradeEntry :=
  { timestamp_ := ts, symbol_ := sym, price_ := price, quantity_ := qty }

/-! ## `std::unordered_map<std::string, std::unique_ptr<Statistics>>` -/

/-- The map as an association list. -/
abbrev UnorderedMap := List (String × Statistics)

/-- The value stored under `k`, if any. -/
def UnorderedMap.find : UnorderedMap → String → Option Statistics
  | [], _ => none
  | (k', v) :: rest, k => if k' = k then some v else UnorderedMap.find rest k

/-- Member `count(k)`: the number of entries with key `k` (0 or 1). -/
def UnorderedMap.count (m : UnorderedMap) (k : String) : Nat :=
  match m.find k with
  | none => 0
  | some _ => 1

/-- Assignment `m[k] = v` for a key that is absent: a new entry. -/
def UnorderedMap.insertNew (m : UnorderedMap) (k : String) (v : Statistics) : UnorderedMap :=
  (k, v) :: m

/-- In-place update `m[k]->... = ...` of the value stored under `k`. -/
def UnorderedMap.modify (m : UnorderedMap) (k : String) (f : Statistics → Statistics) :
    UnorderedMap :=
  m.map fun p => if p.1 = k then (p.1, f p.2) else p

/-- The keys of the map are pairwise distinct. -/
def UnorderedMap.NodupKeys (m : UnorderedMap) : Prop := (m.map Prod.fst).Nodup

instance (m : UnorderedMap) : Decidable m.NodupKeys := by
  unfold UnorderedMap.NodupKeys; infer_instance

/-- Class `Storage` (lines 43-48). -/
structure Storage where
  hashmap_ : UnorderedMap
  deriving DecidableEq, Repr

/-- Member `Storage::clear` (line 47). -/
def Storage.clear (_s : Storage) : Storage := { hashmap_ := [] }

/-- The storage right after construction (line 158): an empty map. -/
def Storage.empty : Storage := { hashmap_ := [] }

/-! ## `StatisticsCalculator` -/

/-- Lines 76-82 of `addTradeEntry`: the update of the statistic already
stored for the symbol, statement by statement. -/
def Statistics.update (st : Statistics) (ts : Nat) (qty price : Int) : Statistics :=
  let st := { st with totalVolume_ := wrapInt (st.totalVolume_ + qty) }
  let st := { st with
    weightedAvgPrice_ := (st.weightedAvgPrice_ + toUInt64 (wrapInt (qty * price)))
      % 18446744073709551616 }
  let st := { st with maxTradePrice_ := max price st.maxTradePrice_ }
  let diff : Nat := toUInt64 ((ts : Int) - (st.lastTimestamp_ : Int))
  let st := { st with lastTimestamp_ := ts }
  { st with maxTimeGap_ := max st.maxTimeGap_ diff }

/-- Member `StatisticsCalculator::addTradeEntry` (lines 67-83). -/
def StatisticsCalculator.addTradeEntry (storage_ : Storage) (entry : TradeEntry) : Storage :=
  let ts := entry.timestamp_
  let sym := entry.symbol_
  let qty := entry.quantity_
  let price := entry.price_
  if storage_.hashmap_.count sym = 0 then
    { hashmap_ := storage_.hashmap_.insertNew sym (Statistics.ctor ts qty price) }
  else
    { hashmap_ := storage_.hashmap_.modify sym fun st => st.update ts qty price }

/-- The quotient `weightedAvgPrice_ / totalVolume_` of line 96: the `int`
divisor is converted to `uint64_t` and the division is unsigned; there is
no result when the divisor is zero. -/
def Statistics.averagePrice (st : Statistics) : Option Nat :=
  if toUInt64 st.totalVolume_ = 0 then none
  else some (st.weightedAvgPrice_ / toUInt64 st.totalVolume_)

/-- Lines 88-98 of `cleanup`: the text built for one entry of the map,
given the quotient of line 96. -/
def StatisticsCalculator.line (v : String × Statistics) (avg : Nat) : String :=
  v.1 ++ "," ++ toString v.2.maxTimeGap_ ++ "," ++ toString v.2.totalVolume_ ++ ","
    ++ toString avg ++ "," ++ toString v.2.maxTradePrice_

/-- Lines 88-98 of `cleanup` for one entry of the map: no text when the
division of line 96 has no result. -/
def StatisticsCalculator.formatEntry (v : String × Statistics) : Option String :=
  match v.2.averagePrice with
  | none => none
  | some avg => some (StatisticsCalculator.line v avg)

/-- The loop of `cleanup` (lines 87-100) over the entries of the map. -/
def StatisticsCalculator.formatAll : UnorderedMap → Option (List String)
  | [] => some []
  | v :: rest =>
    match StatisticsCalculator.formatEntry v with
    | none => none
    | some str =>
      match StatisticsCalculator.formatAll rest with
      | none => none
      | some retvec => some (str :: retvec)

/-- Member `StatisticsCalculator::cleanup` (lines 85-103): the returned
vector and the storage after the call. -/
def StatisticsCalculator.cleanup (storage_ : Storage) : Option (List String × Storage) :=
  match StatisticsCalculator.formatAll storage_.hashmap_ with
  | none => none
  | some retvec => some (retvec, storage_.clear)

/-- Folding a sequence of records, in arrival order, with `addTradeEntry`
(the loop of `Parser::parseFile`, line 128). -/
def foldEntries (storage_ : Storage) (entries : List TradeEntry) : Storage :=
  entries.foldl StatisticsCalculator.addTradeEntry storage_

/-! ## Text and the standard library

A `std::string` is a `String` whose characters stand for its `char`s.
The library functions below follow the C++ standard: `std::isspace` (the
"C" locale), `std::getline`, `std::stoi` and `std::stoull` (`strtol`,
`strtoull` in base 10), `std::string::substr`, `operator<` on strings and
`std::sort`.  `std::sort` leaves the order of equivalent elements
unspecified; it is given by an insertion sort with the same comparator. -/

/-- The exceptions the program can raise. -/
inductive Exception where
  | invalid_argument
  | out_of_range
  deriving DecidableEq, Repr

deriving instance DecidableEq for Except

/-- Outcome of a statement: an exception, an access outside a vector
(undefined), or a value. -/
inductive Outcome (α : Type) where
  | raised (ex : Exception)
  | undefined
  | value (a : α)
  deriving DecidableEq, Repr

/-- Function `std::isspace`: space, `\t`, `\n`, `\v`, `\f`, `\r`. -/
def isspace (c : Char) : Bool := c.toNat = 32 || (9 ≤ c.toNat && c.toNat ≤ 13)

/-- Function `isdigit`: the decimal digits accepted by `strtol`. -/
def isdigit (c : Char) : Bool := 48 ≤ c.toNat && c.toNat ≤ 57

/-- The loop `while (getline(stream, str, delim))` over the characters left
in the stream, `acc` being the characters already extracted for the current
call (in reverse): each call extracts up to the delimiter, which it
discards, or up to the end of the stream, and fails when nothing is left
to extract. -/
def getlineAll (delim : Char) : List Char → List Char → List String
  | [], acc => if acc.isEmpty then [] else [String.mk acc.reverse]
  | c :: cs, acc =>
    if c = delim then String.mk acc.reverse :: getlineAll delim cs []
    else getlineAll delim cs (c :: acc)

/-- Value of a run of decimal digits. -/
def digitsValue (ds : List Char) : Nat := ds.foldl (fun acc c => 10 * acc + (c.toNat - 48)) 0

/-- The part of the text that `strtol` converts: after leading white space,
an optional sign (`true` for a minus) and the longest run of digits. -/
def signAndDigits (str : String) : Bool × List Char :=
  match str.data.dropWhile isspace with
  | [] => (false, [])
  | c :: cs =>
    if c.toNat = 45 then (true, cs.takeWhile isdigit)
    else if c.toNat = 43 then (false, cs.takeWhile isdigit)
    else (false, (c :: cs).takeWhile isdigit)

/-- Function `std::stoi`: `invalid_argument` when no digit can be converted,
`out_of_range` when the value does not fit an `int`. -/
def stoi (str : String) : Except Exception Int :=
  let sd := signAndDigits str
  if sd.2.isEmpty then Except.error Exception.invalid_argument
  else
    let v : Int := if sd.1 then -(digitsValue sd.2 : Int) else (digitsValue sd.2 : Int)
    if v < -2147483648 ∨ 2147483647 < v then Except.error Exception.out_of_range
    else Except.ok v

/-- Function `std::stoull`: `invalid_argument` when no digit can be
converted, `out_of_range` when the digits exceed `2^64 - 1`; a minus sign
negates the value as an unsigned number. -/
def stoull (str : String) : Except Exception Nat :=
  let sd := signAndDigits str
  if sd.2.isEmpty then Except.error Exception.invalid_argument
  else if 18446744073709551615 < digitsValue sd.2 then Except.error Exception.out_of_range
  else Except.ok (if sd.1 then toUInt64 (-(digitsValue sd.2 : Int)) else digitsValue sd.2)

/-- Member `std::string::substr(pos, count)` for `pos` within the string. -/
def substr (s : String) (pos count : Nat) : String := String.mk ((s.data.drop pos).take count)

/-- Comparison `operator<` of two `std::string`s: lexicographic on the
character codes, a proper prefix being smaller. -/
def strLess : List Char → List Char → Bool
  | _, [] => false
  | [], _ :: _ => true
  | a :: as, b :: bs =>
    if a.toNat < b.toNat then true
    else if b.toNat < a.toNat then false
    else strLess as bs

/-- Insertion of `x` before the first element that `comp` puts after it. -/
def insertSorted {α : Type} (comp : α → α → Bool) (x : α) : List α → List α
  | [] => [x]
  | y :: ys => if comp x y then x :: y :: ys else y :: insertSorted comp x ys

/-- Function `std::sort(first, last, comp)` on the content of the range. -/
def stdSort {α : Type} (comp : α → α → Bool) : List α → List α
  | [] => []
  | x :: xs => insertSorted comp x (stdSort comp xs)

/-! ## `Parser` -/

/-- Lines 116-124 of `parseFile`: the white space is erased from the line and
the rest is cut at the commas. -/
def Parser.tokenize (line : String) : List String :=
  getlineAll (Char.ofNat 44) (line.data.filter fun c => !isspace c) []

/-- Member `Parser::checkInput` (lines 133-141); `input.size() < num_entries`
compares in `size_t`.  The second condition reads `input[2]` and, only when
the quantity is positive, `input[3]`. -/
def Parser.checkInput (input : List String) (num_entries : Int) : Outcome Unit :=
  if input.length < toUInt64 num_entries then Outcome.raised Exception.invalid_argument
  else
    match input.get? 2 with
    | none => Outcome.undefined
    | some qtyText =>
      match stoi qtyText with
      | Except.error ex => Outcome.raised ex
      | Except.ok qty =>
        if qty ≤ 0 then Outcome.raised Exception.invalid_argument
        else
          match input.get? 3 with
          | none => Outcome.undefined
          | some priceText =>
            match stoi priceText with
            | Except.error ex => Outcome.raised ex
            | Except.ok price =>
              if price ≤ 0 then Outcome.raised Exception.invalid_argument
              else Outcome.value ()

/-- Lines 116-127 of `parseFile` for one line: the record built from the
line, which line 128 passes to `addTradeEntry`. -/
def Parser.parseLine (line : String) (num_entries : Int) : Outcome TradeEntry :=
  let tokens := Parser.tokenize line
  match Parser.checkInput tokens num_entries with
  | Outcome.raised ex => Outcome.raised ex
  | Outcome.undefined => Outcome.undefined
  | Outcome.value _ =>
    match tokens.get? 0, tokens.get? 1, tokens.get? 2, tokens.get? 3 with
    | some t0, some t1, some t2, some t3 =>
      match stoull t0, stoi t2, stoi t3 with
      | Except.error ex, _, _ => Outcome.raised ex
      | Except.ok _, Except.error ex, _ => Outcome.raised ex
      | Except.ok _, Except.ok _, Except.error ex => Outcome.raised ex
      | Except.ok ts, Except.ok qty, Except.ok price =>
        Outcome.value (TradeEntry.ctor ts t1 qty price)
    | _, _, _, _ => Outcome.undefined

/-- The loop of `parseFile` (lines 115-129) over the lines of the stream:
the storage as the loop leaves it, and how the loop ended (`value` at the
end of the stream). -/
def Parser.parseLines : Storage → List String → Int → Storage × Outcome Unit
  | storage_, [], _ => (storage_, Outcome.value ())
  | storage_, line :: rest, num_entries =>
    match Parser.parseLine line num_entries with
    | Outcome.raised ex => (storage_, Outcome.raised ex)
    | Outcome.undefined => (storage_, Outcome.undefined)
    | Outcome.value te =>
      Parser.parseLines (StatisticsCalculator.addTradeEntry storage_ te) rest num_entries

/-- Member `Parser::parseFile` (lines 113-130) on the text of the stream. -/
def Parser.parseFile (storage_ : Storage) (infile : String) (num_entries : Int) :
    Storage × Outcome Unit :=
  Parser.parseLines storage_ (getlineAll (Char.ofNat 10) infile.data []) num_entries

/-! ## `Outputter` -/

/-- Member `Outputter::save` (lines 146-151): the lines written to the
stream, in order; `substr(0, sym_len)` takes its count as `size_t`. -/
def Outputter.save (vec : List String) (sym_len : Int) : List String :=
  stdSort (fun a b => strLess (substr a 0 (toUInt64 sym_len)).data
    (substr b 0 (toUInt64 sym_len)).data) vec

/-! ## Specification-side and auxiliary definitions -/

/-- The statistic that `addTradeEntry` leaves for the symbol of `e`, from
the statistic (if any) held before: the constructor on a first sighting
(line 73), the update of lines 76-82 otherwise. -/
def stepStat (o : Option Statistics) (e : TradeEntry) : Statistics :=
  match o with
  | none => Statistics.ctor e.timestamp_ e.quantity_ e.price_
  | some st => st.update e.timestamp_ e.quantity_ e.price_

/-- The statistic of one symbol after the records `rs` of that symbol, from
the statistic (if any) held before them. -/
def foldStat (o : Option Statistics) (rs : List TradeEntry) : Option Statistics :=
  rs.foldl (fun o e => some (stepStat o e)) o

/-- Lines 76-82 applied for each record of `rs` in turn. -/
def updStats (st : Statistics) (rs : List TradeEntry) : Statistics :=
  rs.foldl (fun st e => st.update e.timestamp_ e.quantity_ e.price_) st

/-- Sum of the quantities of the records. -/
def sumQuantity (rs : List TradeEntry) : Int := (rs.map fun e => e.quantity_).sum

/-- Sum of `quantity * price` over the records. -/
def sumQuantityPrice (rs : List TradeEntry) : Int :=
  (rs.map fun e => e.quantity_ * e.price_).sum

/-- Sum of the addends that line 77 adds: each product taken in `int`
and converted to `uint64_t`. -/
def sumAddends (rs : List TradeEntry) : Nat :=
  (rs.map fun e => toUInt64 (wrapInt (e.quantity_ * e.price_))).sum

/-- Time gap between two consecutive timestamps as an unsigned 64-bit
difference: later minus earlier, wrapped when the later one is smaller. -/
def timeGap (earlier later : Nat) : Nat :=
  if earlier ≤ later then later - earlier else 18446744073709551616 - (earlier - later)

/-- The time gaps of all pairs of consecutive timestamps, in arrival order. -/
def consecutiveGaps : List Nat → List Nat
  | a :: b :: rest => timeGap a b :: consecutiveGaps (b :: rest)
  | _ => []

/-- The summary line of the spec for symbol `s` with statistic `st`:
`s,maxTimeGap,totalVolume,A,maxTradePrice` in decimal, where `A` is the floor
of the rational quotient `weightedPriceSum / totalVolume`. -/
def expectedLine (s : String) (st : Statistics) : String :=
  s ++ "," ++ toString st.maxTimeGap_ ++ "," ++ toString st.totalVolume_ ++ ","
    ++ toString ⌊(st.weightedAvgPrice_ : ℚ) / (st.totalVolume_ : ℚ)⌋ ++ ","
    ++ toString st.maxTradePrice_

/-- The records that the loop of `parseFile` passes to `addTradeEntry`
(line 128), in order, up to the first line that does not yield a record. -/
def Parser.passedEntries : List String → Int → List TradeEntry
  | [], _ => []
  | line :: rest, num_entries =>
    match Parser.parseLine line num_entries with
    | Outcome.value te => te :: Parser.passedEntries rest num_entries
    | _ => []

/-! ## Machine arithmetic lemmas -/

theorem wrapInt_eq_self {i : Int} (h : isInt i) : wrapInt i = i := by
  unfold wrapInt; unfold isInt at h; omega

theorem isInt_wrapInt (i : Int) : isInt (wrapInt i) := by
  unfold wrapInt isInt; omega

theorem wrapInt_add_left (a b : Int) : wrapInt (wrapInt a + b) = wrapInt (a + b) := by
  unfold wrapInt; omega

theorem isUInt64_toUInt64 (i : Int) : isUInt64 (toUInt64 i) := by
  unfold toUInt64 isUInt64; omega

theorem toUInt64_eq_self {i : Int} (h0 : 0 ≤ i) (h1 : i < 18446744073709551616) :
    (toUInt64 i : Int) = i := by
  unfold toUInt64; omega

theorem toUInt64_natCast {n : Nat} (h : isUInt64 n) : toUInt64 (n : Int) = n := by
  unfold toUInt64; unfold isUInt64 at h; omega

/-! ## The map -/

theorem UnorderedMap.find_nil (k : String) : UnorderedMap.find [] k = none := rfl

theorem UnorderedMap.find_cons (k' : String) (v : Statistics) (rest : UnorderedMap)
    (k : String) :
    UnorderedMap.find ((k', v) :: rest) k = if k' = k then some v else UnorderedMap.find rest k :=
  rfl

theorem UnorderedMap.find_eq_none_iff (m : UnorderedMap) (k : String) :
    m.find k = none ↔ k ∉ m.map Prod.fst := by
  induction m with
  | nil => simp [UnorderedMap.find_nil]
  | cons p rest ih =>
    obtain ⟨k', v⟩ := p
    rw [UnorderedMap.find_cons]
    by_cases h : k' = k
    · simp [h]
    · simp only [h, if_false, ih, List.map_cons, List.mem_cons, not_or]
      exact ⟨fun hr => ⟨fun hk => h hk.symm, hr⟩, fun hr => hr.2⟩

theorem UnorderedMap.mem_of_find (m : UnorderedMap) (k : String) (v : Statistics)
    (h : m.find k = some v) : (k, v) ∈ m := by
  induction m with
  | nil => simp [UnorderedMap.find_nil] at h
  | cons p rest ih =>
    obtain ⟨k', v'⟩ := p
    rw [UnorderedMap.find_cons] at h
    by_cases hk : k' = k
    · simp only [hk, if_true, Option.some.injEq] at h
      simp [hk, h]
    · simp only [hk, if_false] at h
      exact List.mem_cons_of_mem _ (ih h)

theorem UnorderedMap.find_of_mem (m : UnorderedMap) (hnd : m.NodupKeys) (k : String)
    (v : Statistics) (h : (k, v) ∈ m) : m.find k = some v := by
  induction m with
  | nil => simp at h
  | cons p rest ih =>
    obtain ⟨k', v'⟩ := p
    unfold UnorderedMap.NodupKeys at hnd ih
    simp only [List.map_cons, List.nodup_cons] at hnd
    rw [UnorderedMap.find_cons]
    rcases List.mem_cons.mp h with heq | hmem
    · simp only [Prod.mk.injEq] at heq
      simp [heq.1, heq.2]
    · have hne : k' ≠ k := by
        intro hk
        apply hnd.1
        rw [hk]
        exact List.mem_map_of_mem Prod.fst hmem
      simp only [hne, if_false]
      exact ih hnd.2 hmem

theorem UnorderedMap.map_fst_modify (m : UnorderedMap) (k : String)
    (f : Statistics → Statistics) : (m.modify k f).map Prod.fst = m.map Prod.fst := by
  unfold UnorderedMap.modify
  rw [List.map_map]
  apply List.map_congr_left
  intro p _
  by_cases h : p.1 = k <;> simp [h]

theorem UnorderedMap.find_modify (m : UnorderedMap) (k : String) (f : Statistics → Statistics)
    (k' : String) :
    (m.modify k f).find k' = if k = k' then (m.find k').map f else m.find k' := by
  induction m with
  | nil => simp [UnorderedMap.modify, UnorderedMap.find_nil]
  | cons p rest ih =>
    obtain ⟨a, v⟩ := p
    unfold UnorderedMap.modify at ih ⊢
    simp only [List.map_cons]
    by_cases ha : a = k
    · by_cases hk : k = k'
      · subst ha; subst hk
        simp [UnorderedMap.find_cons]
      · subst ha
        simp only [if_true, UnorderedMap.find_cons, hk, if_false]
        simpa [hk] using ih
    · by_cases hk : k = k'
      · subst hk
        simp only [ha, if_false, UnorderedMap.find_cons, if_true]
        simpa using ih
      · simp only [ha, if_false, UnorderedMap.find_cons, hk]
        by_cases hak : a = k'
        · simp [hak]
        · simpa [hak, hk] using ih

theorem addTradeEntry_first (S : Storage) (e : TradeEntry)
    (h : S.hashmap_.find e.symbol_ = none) :
    StatisticsCalculator.addTradeEntry S e =
      { hashmap_ := (e.symbol_, Statistics.ctor e.timestamp_ e.quantity_ e.price_)
          :: S.hashmap_ } := by
  simp [StatisticsCalculator.addTradeEntry, UnorderedMap.count, h, UnorderedMap.insertNew]

theorem addTradeEntry_next (S : Storage) (e : TradeEntry) (st : Statistics)
    (h : S.hashmap_.find e.symbol_ = some st) :
    StatisticsCalculator.addTradeEntry S e =
      { hashmap_ := S.hashmap_.modify e.symbol_
          fun st => st.update e.timestamp_ e.quantity_ e.price_ } := by
  simp [StatisticsCalculator.addTradeEntry, UnorderedMap.count, h]

theorem find_addTradeEntry (S : Storage) (e : TradeEntry) (s : String) :
    (StatisticsCalculator.addTradeEntry S e).hashmap_.find s =
      if e.symbol_ = s then some (stepStat (S.hashmap_.find s) e) else S.hashmap_.find s := by
  cases hf : S.hashmap_.find e.symbol_ with
  | none =>
    rw [addTradeEntry_first S e hf, UnorderedMap.find_cons]
    by_cases hs : e.symbol_ = s
    · subst hs; simp [hf, stepStat]
    · simp [hs]
  | some st =>
    rw [addTradeEntry_next S e st hf, UnorderedMap.find_modify]
    by_cases hs : e.symbol_ = s
    · subst hs; simp [hf, stepStat]
    · simp [hs]

theorem nodupKeys_addTradeEntry (S : Storage) (e : TradeEntry) (h : S.hashmap_.NodupKeys) :
    (StatisticsCalculator.addTradeEntry S e).hashmap_.NodupKeys := by
  cases hf : S.hashmap_.find e.symbol_ with
  | none =>
    rw [addTradeEntry_first S e hf]
    unfold UnorderedMap.NodupKeys at h ⊢
    rw [List.map_cons, List.nodup_cons]
    exact ⟨(UnorderedMap.find_eq_none_iff _ _).mp hf, h⟩
  | some st =>
    rw [addTradeEntry_next S e st hf]
    unfold UnorderedMap.NodupKeys at h ⊢
    rw [UnorderedMap.map_fst_modify]
    exact h

theorem foldEntries_nil (S : Storage) : foldEntries S [] = S := rfl

theorem foldEntries_cons (S : Storage) (e : TradeEntry) (rs : List TradeEntry) :
    foldEntries S (e :: rs) = foldEntries (StatisticsCalculator.addTradeEntry S e) rs := rfl

theorem foldEntries_append (S : Storage) (rs rs' : List TradeEntry) :
    foldEntries S (rs ++ rs') = foldEntries (foldEntries S rs) rs' := by
  unfold foldEntries; rw [List.foldl_append]

theorem nodupKeys_foldEntries (rs : List TradeEntry) (S : Storage) (h : S.hashmap_.NodupKeys) :
    (foldEntries S rs).hashmap_.NodupKeys := by
  induction rs generalizing S with
  | nil => exact h
  | cons e rs ih => exact ih _ (nodupKeys_addTradeEntry S e h)

/-! ## One symbol at a time -/

theorem foldStat_some (st : Statistics) (rs : List TradeEntry) :
    foldStat (some st) rs = some (updStats st rs) := by
  induction rs generalizing st with
  | nil => rfl
  | cons e rs ih =>
    unfold foldStat updStats at ih ⊢
    simp only [List.foldl_cons, stepStat]
    exact ih _

theorem foldStat_none_cons (e : TradeEntry) (rs : List TradeEntry) :
    foldStat none (e :: rs) =
      some (updStats (Statistics.ctor e.timestamp_ e.quantity_ e.price_) rs) := by
  rw [← foldStat_some]; rfl

theorem find_foldEntries (rs : List TradeEntry) (S : Storage) (s : String) :
    (foldEntries S rs).hashmap_.find s =
      foldStat (S.hashmap_.find s) (rs.filter fun e => e.symbol_ = s) := by
  induction rs generalizing S with
  | nil => rfl
  | cons e rs ih =>
    rw [foldEntries_cons, ih, find_addTradeEntry]
    by_cases hs : e.symbol_ = s
    · simp only [hs, if_true, List.filter_cons, decide_True]
      rfl
    · simp only [hs, if_false, List.filter_cons, decide_False]
      simp

theorem filter_symbol_eq_self (rs : List TradeEntry) (s : String)
    (h : ∀ e ∈ rs, e.symbol_ = s) : (rs.filter fun e => e.symbol_ = s) = rs := by
  rw [List.filter_eq_self]
  intro e he
  simp [h e he]

/-- A single-symbol sequence folded from the empty state: the statistic of
the symbol is the constructor on the first record updated by the rest. -/
theorem find_foldEntries_single (s : String) (e : TradeEntry) (rs : List TradeEntry)
    (h : ∀ r ∈ e :: rs, r.symbol_ = s) :
    (foldEntries Storage.empty (e :: rs)).hashmap_.find s =
      some (updStats (Statistics.ctor e.timestamp_ e.quantity_ e.price_) rs) := by
  rw [find_foldEntries, filter_symbol_eq_self _ _ h]
  exact foldStat_none_cons e rs

/-- The map itself after a single-symbol sequence: one entry. -/
theorem hashmap_foldEntries_single (s : String) (rs : List TradeEntry) (st : Statistics)
    (h : ∀ r ∈ rs, r.symbol_ = s) :
    (foldEntries { hashmap_ := [(s, st)] } rs).hashmap_ = [(s, updStats st rs)] := by
  induction rs generalizing st with
  | nil => rfl
  | cons e rs ih =>
    have hs : e.symbol_ = s := h e (List.mem_cons_self _ _)
    have hf : UnorderedMap.find [(s, st)] e.symbol_ = some st := by
      simp [UnorderedMap.find_cons, hs]
    rw [foldEntries_cons, addTradeEntry_next _ e st hf]
    have hm : UnorderedMap.modify [(s, st)] e.symbol_
        (fun st => st.update e.timestamp_ e.quantity_ e.price_) =
        [(s, st.update e.timestamp_ e.quantity_ e.price_)] := by
      simp [UnorderedMap.modify, hs]
    rw [hm, ih _ (fun r hr => h r (List.mem_cons_of_mem _ hr))]
    rfl

/-! ### The two running sums -/

theorem totalVolume_updStats (rs : List TradeEntry) (st : Statistics)
    (h : isInt st.totalVolume_) :
    (updStats st rs).totalVolume_ = wrapInt (st.totalVolume_ + sumQuantity rs) := by
  induction rs generalizing st with
  | nil => simp [updStats, sumQuantity, wrapInt_eq_self h]
  | cons e rs ih =>
    have h1 : updStats st (e :: rs) = updStats (st.update e.timestamp_ e.quantity_ e.price_) rs :=
      rfl
    have h2 : (st.update e.timestamp_ e.quantity_ e.price_).totalVolume_ =
        wrapInt (st.totalVolume_ + e.quantity_) := rfl
    rw [h1, ih _ (by rw [h2]; exact isInt_wrapInt _), h2, wrapInt_add_left]
    simp [sumQuantity, add_assoc]

theorem weightedAvgPrice_updStats (rs : List TradeEntry) (st : Statistics)
    (h : isUInt64 st.weightedAvgPrice_) :
    (updStats st rs).weightedAvgPrice_ =
      (st.weightedAvgPrice_ + sumAddends rs) % 18446744073709551616 := by
  induction rs generalizing st with
  | nil =>
    unfold isUInt64 at h
    simp [updStats, sumAddends, Nat.mod_eq_of_lt h]
  | cons e rs ih =>
    have h1 : updStats st (e :: rs) = updStats (st.update e.timestamp_ e.quantity_ e.price_) rs :=
      rfl
    have h2 : (st.update e.timestamp_ e.quantity_ e.price_).weightedAvgPrice_ =
        (st.weightedAvgPrice_ + toUInt64 (wrapInt (e.quantity_ * e.price_)))
          % 18446744073709551616 := rfl
    rw [h1, ih _ (by rw [h2]; exact Nat.mod_lt _ (by norm_num)), h2]
    simp only [sumAddends, List.map_cons, List.sum_cons]
    omega

theorem sumQuantity_cons (e : TradeEntry) (rs : List TradeEntry) :
    sumQuantity (e :: rs) = e.quantity_ + sumQuantity rs := by
  simp [sumQuantity]

theorem sumQuantityPrice_cons (e : TradeEntry) (rs : List TradeEntry) :
    sumQuantityPrice (e :: rs) = e.quantity_ * e.price_ + sumQuantityPrice rs := by
  simp [sumQuantityPrice]

theorem sumAddends_cons (e : TradeEntry) (rs : List TradeEntry) :
    sumAddends (e :: rs) = toUInt64 (wrapInt (e.quantity_ * e.price_)) + sumAddends rs := by
  simp [sumAddends]

/-- The two sums after a single-symbol sequence folded from the empty
state, in machine arithmetic. -/
theorem sums_foldEntries_single (s : String) (e : TradeEntry) (rs : List TradeEntry)
    (h : ∀ r ∈ e :: rs, r.symbol_ = s) (hq : isInt e.quantity_) :
    ∃ st, (foldEntries Storage.empty (e :: rs)).hashmap_.find s = some st ∧
      st.totalVolume_ = wrapInt (sumQuantity (e :: rs)) ∧
      st.weightedAvgPrice_ = sumAddends (e :: rs) % 18446744073709551616 := by
  refine ⟨_, find_foldEntries_single s e rs h, ?_, ?_⟩
  · rw [totalVolume_updStats _ _ hq, sumQuantity_cons]; rfl
  · rw [weightedAvgPrice_updStats _ _ (isUInt64_toUInt64 _), sumAddends_cons]; rfl

theorem sumAddends_eq (rs : List TradeEntry)
    (h : ∀ r ∈ rs, 0 ≤ r.quantity_ * r.price_ ∧ r.quantity_ * r.price_ ≤ 2147483647) :
    (sumAddends rs : Int) = sumQuantityPrice rs := by
  induction rs with
  | nil => simp [sumAddends, sumQuantityPrice]
  | cons e rs ih =>
    rw [sumAddends_cons, sumQuantityPrice_cons, Nat.cast_add,
      ih (fun r hr => h r (List.mem_cons_of_mem _ hr))]
    have he := h e (List.mem_cons_self _ _)
    have hw : wrapInt (e.quantity_ * e.price_) = e.quantity_ * e.price_ :=
      wrapInt_eq_self ⟨by omega, he.2⟩
    rw [hw, toUInt64_eq_self he.1 (by omega)]

theorem sumQuantityPrice_le (rs : List TradeEntry)
    (h : ∀ r ∈ rs, 0 < r.quantity_ ∧ r.quantity_ * r.price_ ≤ 2147483647) :
    sumQuantityPrice rs ≤ 2147483647 * sumQuantity rs := by
  induction rs with
  | nil => simp [sumQuantity, sumQuantityPrice]
  | cons e rs ih =>
    rw [sumQuantity_cons, sumQuantityPrice_cons]
    have he := h e (List.mem_cons_self _ _)
    have := ih (fun r hr => h r (List.mem_cons_of_mem _ hr))
    omega

theorem sumQuantity_pos (rs : List TradeEntry) (hne : rs ≠ [])
    (h : ∀ r ∈ rs, 0 < r.quantity_) : 0 < sumQuantity rs := by
  induction rs with
  | nil => exact absurd rfl hne
  | cons e rs ih =>
    rw [sumQuantity_cons]
    have he := h e (List.mem_cons_self _ _)
    cases rs with
    | nil => simpa [sumQuantity] using he
    | cons e' rs' =>
      have := ih (by simp) (fun r hr => h r (List.mem_cons_of_mem _ hr))
      omega

theorem sumQuantityPrice_nonneg (rs : List TradeEntry)
    (h : ∀ r ∈ rs, 0 ≤ r.quantity_ * r.price_) : 0 ≤ sumQuantityPrice rs := by
  induction rs with
  | nil => simp [sumQuantityPrice]
  | cons e rs ih =>
    rw [sumQuantityPrice_cons]
    have he := h e (List.mem_cons_self _ _)
    have := ih (fun r hr => h r (List.mem_cons_of_mem _ hr))
    omega

/-- Exact sums: a single-symbol sequence of records with positive quantity
and price whose quantities sum to at most `INT_MAX` and whose products each
fit in `int`. -/
theorem exact_sums_single (s : String) (rs : List TradeEntry) (hne : rs ≠ [])
    (h : ∀ r ∈ rs, r.symbol_ = s ∧ 0 < r.quantity_ ∧ 0 < r.price_ ∧
      r.quantity_ * r.price_ ≤ 2147483647)
    (hvol : sumQuantity rs ≤ 2147483647) :
    ∃ st, (foldEntries Storage.empty rs).hashmap_.find s = some st ∧
      st.totalVolume_ = sumQuantity rs ∧
      (st.weightedAvgPrice_ : Int) = sumQuantityPrice rs := by
  cases rs with
  | nil => exact absurd rfl hne
  | cons e rs =>
    have hpos : 0 < sumQuantity (e :: rs) := sumQuantity_pos _ hne (fun r hr => (h r hr).2.1)
    have hprod : ∀ r ∈ e :: rs, 0 ≤ r.quantity_ * r.price_ ∧
        r.quantity_ * r.price_ ≤ 2147483647 := fun r hr =>
      ⟨le_of_lt (mul_pos (h r hr).2.1 (h r hr).2.2.1), (h r hr).2.2.2⟩
    have hq : isInt e.quantity_ := by
      have he := (h e (List.mem_cons_self _ _)).2.1
      have hs := sumQuantity_cons e rs
      have hrest : 0 ≤ sumQuantity rs := by
        cases rs with
        | nil => simp [sumQuantity]
        | cons e' rs' =>
          exact le_of_lt (sumQuantity_pos _ (by simp) (fun r hr =>
            (h r (List.mem_cons_of_mem _ hr)).2.1))
      unfold isInt; omega
    obtain ⟨st, hfind, htv, hw⟩ :=
      sums_foldEntries_single s e rs (fun r hr => (h r hr).1) hq
    refine ⟨st, hfind, ?_, ?_⟩
    · rw [htv]; exact wrapInt_eq_self ⟨by omega, hvol⟩
    · have hle := sumQuantityPrice_le (e :: rs) (fun r hr => ⟨(h r hr).2.1, (h r hr).2.2.2⟩)
      have heq := sumAddends_eq (e :: rs) hprod
      have hnn := sumQuantityPrice_nonneg (e :: rs) (fun r hr => (hprod r hr).1)
      rw [hw, ← heq]
      omega

/-! ### The two running maxima -/

theorem toUInt64_sub_eq_timeGap {a b : Nat} (ha : isUInt64 a) (hb : isUInt64 b) :
    toUInt64 ((b : Int) - (a : Int)) = timeGap a b := by
  unfold toUInt64 timeGap
  unfold isUInt64 at ha hb
  split <;> omega

theorem maxTradePrice_updStats (rs : List TradeEntry) (st : Statistics) :
    st.maxTradePrice_ ≤ (updStats st rs).maxTradePrice_ ∧
    (∀ r ∈ rs, r.price_ ≤ (updStats st rs).maxTradePrice_) ∧
    ((updStats st rs).maxTradePrice_ = st.maxTradePrice_ ∨
      ∃ r ∈ rs, r.price_ = (updStats st rs).maxTradePrice_) := by
  induction rs generalizing st with
  | nil => simp [updStats]
  | cons e rs ih =>
    have h1 : updStats st (e :: rs) = updStats (st.update e.timestamp_ e.quantity_ e.price_) rs :=
      rfl
    have h2 : (st.update e.timestamp_ e.quantity_ e.price_).maxTradePrice_ =
        max e.price_ st.maxTradePrice_ := rfl
    obtain ⟨ha, hb, hc⟩ := ih (st.update e.timestamp_ e.quantity_ e.price_)
    rw [h2] at ha hc
    rw [h1]
    refine ⟨le_trans (le_max_right _ _) ha, ?_, ?_⟩
    · intro r hr
      rcases List.mem_cons.mp hr with rfl | hr
      · exact le_trans (le_max_left _ _) ha
      · exact hb r hr
    · rcases hc with hc | ⟨r, hr, hrp⟩
      · rcases max_choice e.price_ st.maxTradePrice_ with hm | hm
        · exact Or.inr ⟨e, List.mem_cons_self _ _, by rw [hc, hm]⟩
        · exact Or.inl (by rw [hc, hm])
      · exact Or.inr ⟨r, List.mem_cons_of_mem _ hr, hrp⟩

theorem lastTimestamp_update (st : Statistics) (ts : Nat) (qty price : Int) :
    (st.update ts qty price).lastTimestamp_ = ts := rfl

theorem maxTimeGap_update (st : Statistics) (ts : Nat) (qty price : Int) :
    (st.update ts qty price).maxTimeGap_ =
      max st.maxTimeGap_ (toUInt64 ((ts : Int) - (st.lastTimestamp_ : Int))) := rfl

theorem maxTimeGap_updStats (rs : List TradeEntry) (st : Statistics)
    (hst : isUInt64 st.lastTimestamp_) (h : ∀ r ∈ rs, isUInt64 r.timestamp_) :
    st.maxTimeGap_ ≤ (updStats st rs).maxTimeGap_ ∧
    (∀ g ∈ consecutiveGaps (st.lastTimestamp_ :: rs.map fun r => r.timestamp_),
      g ≤ (updStats st rs).maxTimeGap_) ∧
    ((updStats st rs).maxTimeGap_ = st.maxTimeGap_ ∨
      (updStats st rs).maxTimeGap_ ∈
        consecutiveGaps (st.lastTimestamp_ :: rs.map fun r => r.timestamp_)) := by
  induction rs generalizing st with
  | nil => simp [updStats, consecutiveGaps]
  | cons e rs ih =>
    have h1 : updStats st (e :: rs) = updStats (st.update e.timestamp_ e.quantity_ e.price_) rs :=
      rfl
    have he : isUInt64 e.timestamp_ := h e (List.mem_cons_self _ _)
    obtain ⟨ha, hb, hc⟩ := ih (st.update e.timestamp_ e.quantity_ e.price_)
      (by rw [lastTimestamp_update]; exact he) (fun r hr => h r (List.mem_cons_of_mem _ hr))
    rw [lastTimestamp_update] at hb hc
    rw [maxTimeGap_update, toUInt64_sub_eq_timeGap hst he] at ha hc
    rw [h1]
    simp only [List.map_cons, consecutiveGaps, List.mem_cons]
    refine ⟨le_trans (le_max_left _ _) ha, ?_, ?_⟩
    · intro g hg
      rcases hg with rfl | hg
      · exact le_trans (le_max_right _ _) ha
      · exact hb g hg
    · rcases hc with hc | hc
      · rcases max_choice st.maxTimeGap_ (timeGap st.lastTimestamp_ e.timestamp_) with hm | hm
        · exact Or.inl (by rw [hc, hm])
        · exact Or.inr (Or.inl (by rw [hc, hm]))
      · exact Or.inr (Or.inr hc)

/-! ### `cleanup` -/

theorem toUInt64_pos {i : Int} (h0 : 0 < i) (h1 : i ≤ 2147483647) :
    toUInt64 i = i.toNat ∧ toUInt64 i ≠ 0 := by
  unfold toUInt64; omega

theorem formatAll_of_ne_zero (m : UnorderedMap)
    (h : ∀ p ∈ m, toUInt64 p.2.totalVolume_ ≠ 0) :
    StatisticsCalculator.formatAll m = some (m.map fun p =>
      StatisticsCalculator.line p (p.2.weightedAvgPrice_ / toUInt64 p.2.totalVolume_)) := by
  induction m with
  | nil => rfl
  | cons p rest ih =>
    have hp := h p (List.mem_cons_self _ _)
    simp only [StatisticsCalculator.formatAll, StatisticsCalculator.formatEntry,
      Statistics.averagePrice, hp, if_false, ih (fun q hq => h q (List.mem_cons_of_mem _ hq)),
      List.map_cons]

theorem formatAll_eq_none (m : UnorderedMap) (h : StatisticsCalculator.formatAll m = none) :
    ∃ p ∈ m, toUInt64 p.2.totalVolume_ = 0 := by
  by_contra hcon
  push_neg at hcon
  rw [formatAll_of_ne_zero m hcon] at h
  exact Option.noConfusion h

theorem line_eq_expectedLine (p : String × Statistics) (h0 : 0 < p.2.totalVolume_)
    (h1 : p.2.totalVolume_ ≤ 2147483647) :
    StatisticsCalculator.line p (p.2.weightedAvgPrice_ / toUInt64 p.2.totalVolume_)
      = expectedLine p.1 p.2 := by
  have hfloor : ⌊(p.2.weightedAvgPrice_ : ℚ) / (p.2.totalVolume_ : ℚ)⌋
      = ((p.2.weightedAvgPrice_ / toUInt64 p.2.totalVolume_ : Nat) : Int) := by
    have hcast : (p.2.totalVolume_ : ℚ) = ((toUInt64 p.2.totalVolume_ : Nat) : ℚ) := by
      have : ((toUInt64 p.2.totalVolume_ : Nat) : Int) = p.2.totalVolume_ := by
        rw [(toUInt64_pos h0 h1).1]; omega
      have h2 : (p.2.totalVolume_ : ℚ) = (((toUInt64 p.2.totalVolume_ : Nat) : Int) : ℚ) := by
        rw [this]
      rw [h2]; simp
    rw [hcast, Rat.floor_natCast_div_natCast]
    simp
  unfold expectedLine StatisticsCalculator.line
  rw [hfloor]
  rfl

/-! ### Single-symbol sequences: the map and the price bounds -/

theorem hashmap_foldEntries_empty_single (s : String) (e : TradeEntry)
    (rs : List TradeEntry) (h : ∀ r ∈ e :: rs, r.symbol_ = s) :
    (foldEntries Storage.empty (e :: rs)).hashmap_ =
      [(s, updStats (Statistics.ctor e.timestamp_ e.quantity_ e.price_) rs)] := by
  have hs : e.symbol_ = s := h e (List.mem_cons_self _ _)
  rw [foldEntries_cons, addTradeEntry_first Storage.empty e rfl, hs]
  exact hashmap_foldEntries_single s rs _ (fun r hr => h r (List.mem_cons_of_mem _ hr))

theorem mul_sumQuantity_le (rs : List TradeEntry) (lo : Int)
    (h : ∀ r ∈ rs, 0 ≤ r.quantity_ ∧ lo ≤ r.price_) :
    lo * sumQuantity rs ≤ sumQuantityPrice rs := by
  induction rs with
  | nil => simp [sumQuantity, sumQuantityPrice]
  | cons e rs ih =>
    rw [sumQuantity_cons, sumQuantityPrice_cons, mul_add]
    have he := h e (List.mem_cons_self _ _)
    have h1 : lo * e.quantity_ ≤ e.quantity_ * e.price_ := by
      rw [mul_comm lo]
      exact mul_le_mul_of_nonneg_left he.2 he.1
    exact add_le_add h1 (ih (fun r hr => h r (List.mem_cons_of_mem _ hr)))

theorem sumQuantityPrice_le_mul (rs : List TradeEntry) (hi : Int)
    (h : ∀ r ∈ rs, 0 ≤ r.quantity_ ∧ r.price_ ≤ hi) :
    sumQuantityPrice rs ≤ hi * sumQuantity rs := by
  induction rs with
  | nil => simp [sumQuantity, sumQuantityPrice]
  | cons e rs ih =>
    rw [sumQuantity_cons, sumQuantityPrice_cons, mul_add]
    have he := h e (List.mem_cons_self _ _)
    have h1 : e.quantity_ * e.price_ ≤ hi * e.quantity_ := by
      rw [mul_comm hi]
      exact mul_le_mul_of_nonneg_left he.2 he.1
    exact add_le_add h1 (ih (fun r hr => h r (List.mem_cons_of_mem _ hr)))

theorem totalVolume_foldStat_none (rs : List TradeEntry) (st : Statistics)
    (h : foldStat none rs = some st) (hq : ∀ r ∈ rs, isInt r.quantity_) :
    rs ≠ [] ∧ st.totalVolume_ = wrapInt (sumQuantity rs) := by
  cases rs with
  | nil => exact Option.noConfusion h
  | cons e rs =>
    rw [foldStat_none_cons] at h
    have hst := Option.some.inj h
    refine ⟨by simp, ?_⟩
    rw [← hst, totalVolume_updStats _ _ (hq e (List.mem_cons_self _ _)), sumQuantity_cons]
    rfl

/-- A first sighting whose product `qty * price` lies in `[0, 2^31)`: the
inserted statistic carries the record's values and the exact product. -/
theorem first_sighting_of_product_in_int (S : Storage) (e : TradeEntry)
    (hfind : S.hashmap_.find e.symbol_ = none)
    (hprod : 0 ≤ e.quantity_ * e.price_ ∧ e.quantity_ * e.price_ ≤ 2147483647) :
    ∃ st, (StatisticsCalculator.addTradeEntry S e).hashmap_.find e.symbol_ = some st ∧
      st.lastTimestamp_ = e.timestamp_ ∧ st.maxTradePrice_ = e.price_ ∧
      st.totalVolume_ = e.quantity_ ∧
      (st.weightedAvgPrice_ : Int) = e.quantity_ * e.price_ ∧ st.maxTimeGap_ = 0 := by
  refine ⟨Statistics.ctor e.timestamp_ e.quantity_ e.price_, ?_, rfl, rfl, rfl, ?_, rfl⟩
  · rw [find_addTradeEntry, if_pos rfl, hfind]; rfl
  · show (toUInt64 (wrapInt (e.quantity_ * e.price_)) : Int) = _
    rw [wrapInt_eq_self ⟨by omega, hprod.2⟩, toUInt64_eq_self hprod.1 (by omega)]

/-! ### Tracked symbols -/

theorem foldStat_none_eq_none_iff (rs : List TradeEntry) :
    foldStat none rs = none ↔ rs = [] := by
  cases rs with
  | nil => exact ⟨fun _ => rfl, fun _ => rfl⟩
  | cons e rs =>
    rw [foldStat_none_cons]
    exact ⟨fun h => Option.noConfusion h, fun h => List.noConfusion h⟩

theorem mem_keys_foldEntries (rs : List TradeEntry) (s : String) :
    s ∈ (foldEntries Storage.empty rs).hashmap_.map Prod.fst ↔
      s ∈ rs.map fun r => r.symbol_ := by
  have h1 : foldStat none (rs.filter fun r => r.symbol_ = s) = none ↔
      s ∉ (foldEntries Storage.empty rs).hashmap_.map Prod.fst := by
    have := UnorderedMap.find_eq_none_iff (foldEntries Storage.empty rs).hashmap_ s
    rw [find_foldEntries] at this
    exact this
  have h2 : foldStat none (rs.filter fun r => r.symbol_ = s) = none ↔
      s ∉ rs.map fun r => r.symbol_ := by
    rw [foldStat_none_eq_none_iff, List.filter_eq_nil_iff]
    simp only [decide_eq_true_eq, List.mem_map, not_exists, not_and]
  exact not_iff_not.mp (h1.symm.trans h2)

theorem formatAll_some (m : UnorderedMap) (lines : List String)
    (h : StatisticsCalculator.formatAll m = some lines) :
    (∀ p ∈ m, toUInt64 p.2.totalVolume_ ≠ 0) ∧
    lines = m.map fun p =>
      StatisticsCalculator.line p (p.2.weightedAvgPrice_ / toUInt64 p.2.totalVolume_) := by
  have hne : ∀ p ∈ m, toUInt64 p.2.totalVolume_ ≠ 0 := by
    intro p hp hz
    induction m generalizing lines with
    | nil => simp at hp
    | cons q rest ih =>
      unfold StatisticsCalculator.formatAll at h
      cases hq : StatisticsCalculator.formatEntry q with
      | none => rw [hq] at h; exact Option.noConfusion h
      | some str =>
        rw [hq] at h
        cases hr : StatisticsCalculator.formatAll rest with
        | none => rw [hr] at h; exact Option.noConfusion h
        | some retvec =>
          rcases List.mem_cons.mp hp with rfl | hmem
          · simp [StatisticsCalculator.formatEntry, Statistics.averagePrice, hz] at hq
          · exact ih retvec hr hmem
  refine ⟨hne, ?_⟩
  rw [formatAll_of_ne_zero m hne] at h
  exact (Option.some.inj h).symm

theorem isInt_totalVolume_foldEntries (rs : List TradeEntry) (h : ∀ r ∈ rs, r.WellTyped)
    (p : String × Statistics) (hp : p ∈ (foldEntries Storage.empty rs).hashmap_) :
    isInt p.2.totalVolume_ := by
  have hnd : (foldEntries Storage.empty rs).hashmap_.NodupKeys :=
    nodupKeys_foldEntries rs Storage.empty List.nodup_nil
  have hfind := UnorderedMap.find_of_mem _ hnd p.1 p.2 hp
  rw [find_foldEntries] at hfind
  obtain ⟨_, htv⟩ := totalVolume_foldStat_none _ _ hfind
    (fun r hr => (h r (List.mem_of_mem_filter hr)).2.2)
  rw [htv]
  exact isInt_wrapInt _

/-! ### The gap bound -/

theorem gap_bound_updStats (rs : List TradeEntry) (st : Statistics) (t0 : Nat)
    (hst : isUInt64 st.lastTimestamp_) (h : ∀ r ∈ rs, isUInt64 r.timestamp_)
    (hsorted : List.Chain (· ≤ ·) st.lastTimestamp_ (rs.map fun r => r.timestamp_))
    (ht0 : t0 ≤ st.lastTimestamp_) (hgap : st.maxTimeGap_ ≤ st.lastTimestamp_ - t0) :
    st.lastTimestamp_ ≤ (updStats st rs).lastTimestamp_ ∧
    (updStats st rs).maxTimeGap_ ≤ (updStats st rs).lastTimestamp_ - t0 := by
  induction rs generalizing st with
  | nil => exact ⟨le_refl _, hgap⟩
  | cons e rs ih =>
    have h1 : updStats st (e :: rs) = updStats (st.update e.timestamp_ e.quantity_ e.price_) rs :=
      rfl
    have he : isUInt64 e.timestamp_ := h e (List.mem_cons_self _ _)
    rw [List.map_cons, List.chain_cons] at hsorted
    have hle : st.lastTimestamp_ ≤ e.timestamp_ := hsorted.1
    have hg : (st.update e.timestamp_ e.quantity_ e.price_).maxTimeGap_
        ≤ e.timestamp_ - t0 := by
      rw [maxTimeGap_update, toUInt64_sub_eq_timeGap hst he]
      unfold timeGap
      rw [if_pos hle]
      exact max_le (by omega) (by omega)
    obtain ⟨ha, hb⟩ := ih (st.update e.timestamp_ e.quantity_ e.price_) he
      (fun r hr => h r (List.mem_cons_of_mem _ hr)) hsorted.2 (le_trans ht0 hle) hg
    rw [lastTimestamp_update] at ha
    rw [h1]
    exact ⟨le_trans hle ha, hb⟩

/-! ### `Parser` -/

theorem toUInt64_four : toUInt64 4 = 4 := by decide

theorem checkInput_short (tokens : List String) (h : tokens.length < 4) :
    Parser.checkInput tokens 4 = Outcome.raised Exception.invalid_argument := by
  unfold Parser.checkInput
  rw [toUInt64_four, if_pos h]

theorem parseLine_raised (line : String) (ex : Exception)
    (h : Parser.checkInput (Parser.tokenize line) 4 = Outcome.raised ex) :
    Parser.parseLine line 4 = Outcome.raised ex := by
  unfold Parser.parseLine
  simp only [h]

theorem parseLines_raised (S : Storage) (line : String) (rest : List String) (ex : Exception)
    (h : Parser.parseLine line 4 = Outcome.raised ex) :
    Parser.parseLines S (line :: rest) 4 = (S, Outcome.raised ex) := by
  unfold Parser.parseLines
  simp only [h]

theorem char_eq_of_toNat {a b : Char} (h : a.toNat = b.toNat) : a = b :=
  Char.ext (UInt32.toNat.inj h)

theorem strLess_nil_right (a : List Char) : strLess a [] = false := by
  cases a <;> rfl

theorem strLess_cons_cons (x y : Char) (xs ys : List Char) :
    strLess (x :: xs) (y :: ys) =
      if x.toNat < y.toNat then true else if y.toNat < x.toNat then false else strLess xs ys :=
  rfl

theorem strLess_asymm (a b : List Char) (h : strLess a b = true) : strLess b a = false := by
  induction a generalizing b with
  | nil => exact strLess_nil_right b
  | cons x xs ih =>
    cases b with
    | nil => rw [strLess_nil_right] at h; exact Bool.noConfusion h
    | cons y ys =>
      rw [strLess_cons_cons] at h ⊢
      by_cases h1 : x.toNat < y.toNat
      · rw [if_neg (by omega), if_pos h1]
      · rw [if_neg h1] at h
        by_cases h2 : y.toNat < x.toNat
        · rw [if_pos h2] at h; exact Bool.noConfusion h
        · rw [if_neg h2] at h
          rw [if_neg h2, if_neg h1]
          exact ih ys h

theorem strLess_trans (a b c : List Char) (hab : strLess a b = true)
    (hbc : strLess b c = true) : strLess a c = true := by
  induction a generalizing b c with
  | nil =>
    cases c with
    | nil => rw [strLess_nil_right] at hbc; exact Bool.noConfusion hbc
    | cons z zs => rfl
  | cons x xs ih =>
    cases b with
    | nil => rw [strLess_nil_right] at hab; exact Bool.noConfusion hab
    | cons y ys =>
      cases c with
      | nil => rw [strLess_nil_right] at hbc; exact Bool.noConfusion hbc
      | cons z zs =>
        rw [strLess_cons_cons] at hab hbc ⊢
        by_cases h1 : x.toNat < y.toNat
        · by_cases h2 : y.toNat < z.toNat
          · rw [if_pos (by omega)]
          · rw [if_neg h2] at hbc
            by_cases h3 : z.toNat < y.toNat
            · rw [if_pos h3] at hbc; exact Bool.noConfusion hbc
            · rw [if_pos (by omega)]
        · rw [if_neg h1] at hab
          by_cases h1' : y.toNat < x.toNat
          · rw [if_pos h1'] at hab; exact Bool.noConfusion hab
          · rw [if_neg h1'] at hab
            by_cases h2 : y.toNat < z.toNat
            · rw [if_pos (by omega)]
            · rw [if_neg h2] at hbc
              by_cases h3 : z.toNat < y.toNat
              · rw [if_pos h3] at hbc; exact Bool.noConfusion hbc
              · rw [if_neg h3] at hbc
                rw [if_neg (by omega), if_neg (by omega)]
                exact ih ys zs hab hbc

theorem strLess_connex (a b : List Char) (hab : strLess a b = false)
    (hba : strLess b a = false) : a = b := by
  induction a generalizing b with
  | nil =>
    cases b with
    | nil => rfl
    | cons y ys => exact Bool.noConfusion hab
  | cons x xs ih =>
    cases b with
    | nil => exact Bool.noConfusion hba
    | cons y ys =>
      rw [strLess_cons_cons] at hab hba
      by_cases h1 : x.toNat < y.toNat
      · rw [if_pos h1] at hab; exact Bool.noConfusion hab
      · rw [if_neg h1] at hab
        by_cases h2 : y.toNat < x.toNat
        · rw [if_pos h2] at hba; exact Bool.noConfusion hba
        · rw [if_neg h2] at hab
          rw [if_neg h2, if_neg h1] at hba
          rw [char_eq_of_toNat (show x.toNat = y.toNat by omega), ih ys hab hba]

theorem strLess_iff_lex (a b : List Char) :
    strLess a b = true ↔ List.Lex (fun x y : Char => x.toNat < y.toNat) a b := by
  induction a generalizing b with
  | nil =>
    cases b with
    | nil => exact ⟨fun h => Bool.noConfusion h, fun h => absurd h (List.Lex.not_nil_right _ _)⟩
    | cons y ys => exact ⟨fun _ => List.Lex.nil, fun _ => rfl⟩
  | cons x xs ih =>
    cases b with
    | nil => exact ⟨fun h => Bool.noConfusion h, fun h => absurd h (List.Lex.not_nil_right _ _)⟩
    | cons y ys =>
      rw [strLess_cons_cons]
      by_cases h1 : x.toNat < y.toNat
      · rw [if_pos h1]
        exact ⟨fun _ => List.Lex.rel h1, fun _ => rfl⟩
      · rw [if_neg h1]
        by_cases h2 : y.toNat < x.toNat
        · rw [if_pos h2]
          refine ⟨fun h => Bool.noConfusion h, fun h => ?_⟩
          cases h with
          | cons h' => omega
          | rel h' => exact absurd h' h1
        · rw [if_neg h2]
          have hxy : x = y := char_eq_of_toNat (by omega)
          subst hxy
          rw [ih ys]
          refine ⟨fun h => List.Lex.cons h, fun h => ?_⟩
          cases h with
          | cons h' => exact h'
          | rel h' => exact absurd h' h1

theorem perm_insertSorted {α : Type} (comp : α → α → Bool) (x : α) (l : List α) :
    (insertSorted comp x l).Perm (x :: l) := by
  induction l with
  | nil => exact List.Perm.refl _
  | cons y ys ih =>
    unfold insertSorted
    by_cases h : comp x y = true
    · rw [if_pos h]
    · rw [if_neg h]
      exact (List.Perm.cons y ih).trans (List.Perm.swap x y ys)

theorem perm_stdSort {α : Type} (comp : α → α → Bool) (l : List α) :
    (stdSort comp l).Perm l := by
  induction l with
  | nil => exact List.Perm.refl _
  | cons x xs ih =>
    exact (perm_insertSorted comp x _).trans (List.Perm.cons x ih)

theorem pairwise_insertSorted {α : Type} (comp : α → α → Bool)
    (hasymm : ∀ a b, comp a b = true → comp b a = false)
    (htrans : ∀ a b c, comp a b = true → comp b c = true → comp a c = true)
    (x : α) (l : List α) (h : l.Pairwise fun a b => comp b a = false) :
    (insertSorted comp x l).Pairwise fun a b => comp b a = false := by
  induction l with
  | nil => exact List.pairwise_singleton _ _
  | cons y ys ih =>
    rw [List.pairwise_cons] at h
    unfold insertSorted
    by_cases hxy : comp x y = true
    · rw [if_pos hxy]
      refine List.Pairwise.cons ?_ (List.Pairwise.cons h.1 h.2)
      intro z hz
      rcases List.mem_cons.mp hz with rfl | hz
      · exact hasymm _ _ hxy
      · cases hzx : comp z x with
        | false => rfl
        | true =>
          have := htrans z x y hzx hxy
          rw [h.1 z hz] at this
          exact Bool.noConfusion this
    · rw [if_neg hxy]
      refine List.Pairwise.cons ?_ (ih h.2)
      intro z hz
      rcases List.mem_cons.mp ((perm_insertSorted comp x ys).mem_iff.mp hz) with rfl | hz
      · exact Bool.eq_false_iff.mpr hxy
      · exact h.1 z hz

theorem pairwise_stdSort {α : Type} (comp : α → α → Bool)
    (hasymm : ∀ a b, comp a b = true → comp b a = false)
    (htrans : ∀ a b c, comp a b = true → comp b c = true → comp a c = true)
    (l : List α) : (stdSort comp l).Pairwise fun a b => comp b a = false := by
  induction l with
  | nil => exact List.Pairwise.nil
  | cons x xs ih => exact pairwise_insertSorted comp hasymm htrans x _ ih

theorem insertSorted_map {α β : Type} (comp : β → β → Bool) (f : α → β) (x : α) (l : List α) :
    insertSorted comp (f x) (l.map f)
      = (insertSorted (fun a b => comp (f a) (f b)) x l).map f := by
  induction l with
  | nil => rfl
  | cons y ys ih =>
    simp only [List.map_cons, insertSorted]
    by_cases h : comp (f x) (f y) = true
    · rw [if_pos h, if_pos h]; rfl
    · rw [if_neg h, if_neg h, List.map_cons, ih]

theorem stdSort_map {α β : Type} (comp : β → β → Bool) (f : α → β) (l : List α) :
    stdSort comp (l.map f) = (stdSort (fun a b => comp (f a) (f b)) l).map f := by
  induction l with
  | nil => rfl
  | cons x xs ih =>
    simp only [List.map_cons, stdSort]
    rw [ih, insertSorted_map]

theorem toUInt64_of_int {i : Int} (h0 : 0 ≤ i) (h1 : i ≤ 2147483647) :
    toUInt64 i = i.toNat := by
  unfold toUInt64; omega

theorem data_substr_zero (s : String) (n : Nat) : (substr s 0 n).data = s.data.take n := rfl

theorem saveComp_asymm (n : Nat) (a b : String)
    (h : strLess (substr a 0 n).data (substr b 0 n).data = true) :
    strLess (substr b 0 n).data (substr a 0 n).data = false :=
  strLess_asymm _ _ h

theorem saveComp_trans (n : Nat) (a b c : String)
    (hab : strLess (substr a 0 n).data (substr b 0 n).data = true)
    (hbc : strLess (substr b 0 n).data (substr c 0 n).data = true) :
    strLess (substr a 0 n).data (substr c 0 n).data = true :=
  strLess_trans _ _ _ hab hbc

theorem toUInt64_three : toUInt64 3 = 3 := by decide

theorem take_line (p : String × Statistics) (avg n : Nat) (h : p.1.length = n) :
    (StatisticsCalculator.line p avg).data.take n = p.1.data := by
  unfold StatisticsCalculator.line
  simp only [String.data_append, List.append_assoc]
  exact List.take_left' h

/-! ## Claims -/

/-- Claim C1, evaluated where it fails: the first record of symbol `A` is
`(0, A, 65536, 65536)`.  The product `65536 * 65536 = 4294967296` is taken in
32-bit `int` before it is stored in the 64-bit field, so the statistic that
`addTradeEntry` inserts has `weightedAvgPrice_ = 0`, and `cleanup` reports the
average price `0` for a symbol whose only trade had price `65536`. -/
theorem C1_first_sighting_product_evaluated_in_int :
    Storage.empty.hashmap_.find "A" = none ∧
    (TradeEntry.ctor 0 "A" 65536 65536).WellTyped ∧
    (StatisticsCalculator.addTradeEntry Storage.empty
        (TradeEntry.ctor 0 "A" 65536 65536)).hashmap_
      = [("A", Statistics.mk 0 0 65536 65536 0)] ∧
    (Statistics.mk 0 0 65536 65536 0).weightedAvgPrice_ = 0 ∧
    (65536 : Int) * 65536 = 4294967296 ∧
    StatisticsCalculator.cleanup (StatisticsCalculator.addTradeEntry Storage.empty
        (TradeEntry.ctor 0 "A" 65536 65536))
      = some (["A,0,65536,0,65536"], Storage.empty) := by
  decide

/-- Claim C2 as stated fails: the state holds `totalVolume = 2147483647` for
`A` and the record `(1, A, 1, 1)` arrives; the stored `totalVolume` becomes
`-2147483648`, not `2147483647 + 1`.  (`Statistics.mk` takes `lastTimestamp_`,
`maxTimeGap_`, `maxTradePrice_`, `totalVolume_`, `weightedAvgPrice_`.) -/
theorem C2_counterexample :
    (Storage.mk [("A", Statistics.mk 0 0 1 2147483647 2147483647)]).hashmap_.find "A"
      = some (Statistics.mk 0 0 1 2147483647 2147483647) ∧
    (Statistics.mk 0 0 1 2147483647 2147483647).WellTyped ∧
    (TradeEntry.ctor 1 "A" 1 1).WellTyped ∧
    (StatisticsCalculator.addTradeEntry
        (Storage.mk [("A", Statistics.mk 0 0 1 2147483647 2147483647)])
        (TradeEntry.ctor 1 "A" 1 1)).hashmap_.find "A"
      = some (Statistics.mk 1 1 1 (-2147483648) 2147483648) ∧
    (Statistics.mk 1 1 1 (-2147483648) 2147483648).totalVolume_
      ≠ (Statistics.mk 0 0 1 2147483647 2147483647).totalVolume_
        + (TradeEntry.ctor 1 "A" 1 1).quantity_ := by
  decide

/-- Claim C2, amended: when `st.totalVolume + qty` and `qty * price` both fit
in a 32-bit `int`, `addTradeEntry` replaces the statistic `st` of the symbol
by the one with `totalVolume = st.totalVolume + qty`,
`weightedPriceSum = (st.weightedPriceSum + qty * price) mod 2^64`,
`maxTradePrice = max st.maxTradePrice price`,
`maxTimeGap = max st.maxTimeGap (ts - st.lastTimestamp)` with the unsigned
64-bit difference against the old `lastTimestamp`, and `lastTimestamp = ts`;
the set of tracked symbols is unchanged. -/
theorem C2_subsequent_sighting (S : Storage) (e : TradeEntry) (st : Statistics)
    (hfind : S.hashmap_.find e.symbol_ = some st) (hst : st.WellTyped) (he : e.WellTyped)
    (hvol : isInt (st.totalVolume_ + e.quantity_))
    (hprod : isInt (e.quantity_ * e.price_)) :
    ∃ st', (StatisticsCalculator.addTradeEntry S e).hashmap_.find e.symbol_ = some st' ∧
      st'.totalVolume_ = st.totalVolume_ + e.quantity_ ∧
      st'.weightedAvgPrice_ = toUInt64 (st.weightedAvgPrice_ + e.quantity_ * e.price_) ∧
      st'.maxTradePrice_ = max st.maxTradePrice_ e.price_ ∧
      st'.maxTimeGap_ = max st.maxTimeGap_ (timeGap st.lastTimestamp_ e.timestamp_) ∧
      st'.lastTimestamp_ = e.timestamp_ ∧
      (StatisticsCalculator.addTradeEntry S e).hashmap_.map Prod.fst
        = S.hashmap_.map Prod.fst := by
  refine ⟨st.update e.timestamp_ e.quantity_ e.price_, ?_, ?_, ?_, ?_, ?_, rfl, ?_⟩
  · rw [find_addTradeEntry, if_pos rfl, hfind]; rfl
  · exact wrapInt_eq_self hvol
  · show (st.weightedAvgPrice_ + toUInt64 (wrapInt (e.quantity_ * e.price_)))
        % 18446744073709551616 = _
    rw [wrapInt_eq_self hprod]
    generalize e.quantity_ * e.price_ = x
    unfold toUInt64
    omega
  · exact max_comm _ _
  · rw [maxTimeGap_update, toUInt64_sub_eq_timeGap hst.1 he.1]
  · rw [addTradeEntry_next S e st hfind]
    have := UnorderedMap.map_fst_modify S.hashmap_ e.symbol_
      (fun st => st.update e.timestamp_ e.quantity_ e.price_)
    exact this

/-- Witness for C2: the second `AAA` record of the spec's example. -/
theorem C2_subsequent_sighting_witness :
    ∃ st', (StatisticsCalculator.addTradeEntry
        (Storage.mk [("AAA", Statistics.ctor 100 10 50)])
        (TradeEntry.ctor 150 "AAA" 5 60)).hashmap_.find "AAA" = some st' ∧
      st'.totalVolume_ = 10 + 5 ∧
      st'.weightedAvgPrice_ = toUInt64 (((500 : Nat) : Int) + 5 * 60) ∧
      st'.maxTradePrice_ = max 50 60 ∧
      st'.maxTimeGap_ = max 0 (timeGap 100 150) ∧
      st'.lastTimestamp_ = 150 ∧
      (StatisticsCalculator.addTradeEntry
        (Storage.mk [("AAA", Statistics.ctor 100 10 50)])
        (TradeEntry.ctor 150 "AAA" 5 60)).hashmap_.map Prod.fst = ["AAA"] :=
  C2_subsequent_sighting (Storage.mk [("AAA", Statistics.ctor 100 10 50)])
    (TradeEntry.ctor 150 "AAA" 5 60) (Statistics.ctor 100 10 50)
    (by decide) (by decide) (by decide) (by decide) (by decide)

/-- Claim C3 as stated fails: the two records `(0, A, 2147483647, 1)` and
`(0, A, 1, 1)` have positive quantity and price and quantities summing to
`2147483648`, but the folded `totalVolume` is `-2147483648`. -/
theorem C3_counterexample :
    (∀ r ∈ [TradeEntry.ctor 0 "A" 2147483647 1, TradeEntry.ctor 0 "A" 1 1],
      r.symbol_ = "A" ∧ r.WellTyped ∧ 0 < r.quantity_ ∧ 0 < r.price_) ∧
    (foldEntries Storage.empty
        [TradeEntry.ctor 0 "A" 2147483647 1, TradeEntry.ctor 0 "A" 1 1]).hashmap_.find "A"
      = some (Statistics.mk 0 0 1 (-2147483648) 2147483648) ∧
    (Statistics.mk 0 0 1 (-2147483648) 2147483648).totalVolume_ = -2147483648 ∧
    sumQuantity [TradeEntry.ctor 0 "A" 2147483647 1, TradeEntry.ctor 0 "A" 1 1]
      = 2147483648 := by
  decide

/-- Claim C3, amended: for every non-empty sequence of records of a single
symbol, each with quantity > 0, price > 0 and `quantity * price` at most
`2147483647`, whose quantities sum to at most `2147483647`, after folding
the sequence from the empty state `totalVolume` is the sum of the quantities
and `weightedPriceSum` is the sum of `quantity * price`. -/
theorem C3_running_sums (s : String) (rs : List TradeEntry) (hne : rs ≠ [])
    (h : ∀ r ∈ rs, r.symbol_ = s ∧ 0 < r.quantity_ ∧ 0 < r.price_ ∧
      r.quantity_ * r.price_ ≤ 2147483647)
    (hvol : sumQuantity rs ≤ 2147483647) :
    ∃ st, (foldEntries Storage.empty rs).hashmap_.find s = some st ∧
      st.totalVolume_ = sumQuantity rs ∧
      (st.weightedAvgPrice_ : Int) = sumQuantityPrice rs :=
  exact_sums_single s rs hne h hvol

/-- Witness for C3: the two `AAA` records of the spec's example. -/
theorem C3_running_sums_witness :
    ∃ st, (foldEntries Storage.empty
        [TradeEntry.ctor 100 "AAA" 10 50, TradeEntry.ctor 150 "AAA" 5 60]).hashmap_.find "AAA"
        = some st ∧
      st.totalVolume_ = sumQuantity
        [TradeEntry.ctor 100 "AAA" 10 50, TradeEntry.ctor 150 "AAA" 5 60] ∧
      (st.weightedAvgPrice_ : Int) = sumQuantityPrice
        [TradeEntry.ctor 100 "AAA" 10 50, TradeEntry.ctor 150 "AAA" 5 60] :=
  C3_running_sums "AAA" [TradeEntry.ctor 100 "AAA" 10 50, TradeEntry.ctor 150 "AAA" 5 60]
    (by decide) (by decide) (by decide)

/-- Claim C4: for every non-empty sequence of records of a single symbol
folded from the empty state, `maxTimeGap` is the maximum of the time gaps of
the pairs of consecutive records in arrival order (it bounds every such gap
and is one of them), each gap being the later timestamp minus the earlier one
as the unsigned 64-bit difference `timeGap`; it is `0` when the sequence has
exactly one record. -/
theorem C4_max_time_gap (s : String) (rs : List TradeEntry) (hne : rs ≠ [])
    (h : ∀ r ∈ rs, r.symbol_ = s ∧ r.WellTyped) :
    ∃ st, (foldEntries Storage.empty rs).hashmap_.find s = some st ∧
      (∀ g ∈ consecutiveGaps (rs.map fun r => r.timestamp_), g ≤ st.maxTimeGap_) ∧
      (consecutiveGaps (rs.map fun r => r.timestamp_) ≠ [] →
        st.maxTimeGap_ ∈ consecutiveGaps (rs.map fun r => r.timestamp_)) ∧
      (rs.length = 1 → st.maxTimeGap_ = 0) := by
  cases rs with
  | nil => exact absurd rfl hne
  | cons e rs =>
    refine ⟨_, find_foldEntries_single s e rs (fun r hr => (h r hr).1), ?_⟩
    obtain ⟨_, hb, hc⟩ := maxTimeGap_updStats rs
      (Statistics.ctor e.timestamp_ e.quantity_ e.price_)
      (h e (List.mem_cons_self _ _)).2.1
      (fun r hr => (h r (List.mem_cons_of_mem _ hr)).2.1)
    have hl : (Statistics.ctor e.timestamp_ e.quantity_ e.price_).lastTimestamp_
        = e.timestamp_ := rfl
    have hg : (Statistics.ctor e.timestamp_ e.quantity_ e.price_).maxTimeGap_ = 0 := rfl
    rw [hl] at hb hc
    rw [hg] at hc
    simp only [List.map_cons]
    refine ⟨hb, ?_, ?_⟩
    · intro hgaps
      rcases hc with hc | hc
      · obtain ⟨g, hgmem⟩ := List.exists_mem_of_ne_nil _ hgaps
        have hle := hb g hgmem
        rw [hc] at hle ⊢
        have hg0 : g = 0 := Nat.le_zero.mp hle
        rw [← hg0]
        exact hgmem
      · exact hc
    · intro hlen
      have hrs : rs = [] := by
        cases rs with
        | nil => rfl
        | cons a l => simp at hlen
      subst hrs
      rfl

/-- Witness for C4: the two `AAA` records of the spec's example. -/
theorem C4_max_time_gap_witness :
    ∃ st, (foldEntries Storage.empty
        [TradeEntry.ctor 100 "AAA" 10 50, TradeEntry.ctor 150 "AAA" 5 60]).hashmap_.find "AAA"
        = some st ∧
      (∀ g ∈ consecutiveGaps ([TradeEntry.ctor 100 "AAA" 10 50,
          TradeEntry.ctor 150 "AAA" 5 60].map fun r => r.timestamp_), g ≤ st.maxTimeGap_) ∧
      (consecutiveGaps ([TradeEntry.ctor 100 "AAA" 10 50,
          TradeEntry.ctor 150 "AAA" 5 60].map fun r => r.timestamp_) ≠ [] →
        st.maxTimeGap_ ∈ consecutiveGaps ([TradeEntry.ctor 100 "AAA" 10 50,
          TradeEntry.ctor 150 "AAA" 5 60].map fun r => r.timestamp_)) ∧
      (([TradeEntry.ctor 100 "AAA" 10 50, TradeEntry.ctor 150 "AAA" 5 60]).length = 1 →
        st.maxTimeGap_ = 0) :=
  C4_max_time_gap "AAA" [TradeEntry.ctor 100 "AAA" 10 50, TradeEntry.ctor 150 "AAA" 5 60]
    (by decide) (by decide)

/-- Claim C5: for every non-empty sequence of records of a single symbol
folded from the empty state, `maxTradePrice` is the maximum price among the
folded records: it is the price of one of them and no record has a larger
price. -/
theorem C5_max_trade_price (s : String) (rs : List TradeEntry) (hne : rs ≠ [])
    (h : ∀ r ∈ rs, r.symbol_ = s) :
    ∃ st, (foldEntries Storage.empty rs).hashmap_.find s = some st ∧
      (∃ r ∈ rs, r.price_ = st.maxTradePrice_) ∧
      (∀ r ∈ rs, r.price_ ≤ st.maxTradePrice_) := by
  cases rs with
  | nil => exact absurd rfl hne
  | cons e rs =>
    refine ⟨_, find_foldEntries_single s e rs h, ?_⟩
    obtain ⟨ha, hb, hc⟩ := maxTradePrice_updStats rs
      (Statistics.ctor e.timestamp_ e.quantity_ e.price_)
    have hp : (Statistics.ctor e.timestamp_ e.quantity_ e.price_).maxTradePrice_
        = e.price_ := rfl
    rw [hp] at ha hc
    constructor
    · rcases hc with hc | ⟨r, hr, hrp⟩
      · exact ⟨e, List.mem_cons_self _ _, hc.symm⟩
      · exact ⟨r, List.mem_cons_of_mem _ hr, hrp⟩
    · intro r hr
      rcases List.mem_cons.mp hr with rfl | hr
      · exact ha
      · exact hb r hr

/-- Witness for C5: the two `AAA` records of the spec's example. -/
theorem C5_max_trade_price_witness :
    ∃ st, (foldEntries Storage.empty
        [TradeEntry.ctor 100 "AAA" 10 50, TradeEntry.ctor 150 "AAA" 5 60]).hashmap_.find "AAA"
        = some st ∧
      (∃ r ∈ [TradeEntry.ctor 100 "AAA" 10 50, TradeEntry.ctor 150 "AAA" 5 60],
        r.price_ = st.maxTradePrice_) ∧
      (∀ r ∈ [TradeEntry.ctor 100 "AAA" 10 50, TradeEntry.ctor 150 "AAA" 5 60],
        r.price_ ≤ st.maxTradePrice_) :=
  C5_max_trade_price "AAA" [TradeEntry.ctor 100 "AAA" 10 50, TradeEntry.ctor 150 "AAA" 5 60]
    (by decide) (by decide)

/-- Claim C6 as stated fails on two states.  Folding four records
`(0, A, 1073741824, 1)` leaves `totalVolume = 0` for `A`: the division of
`cleanup` has no result and no line is returned.  With `totalVolume = -1` and
`weightedPriceSum = 5` the line carries the quotient `0` (the divisor is
converted to `uint64_t`), while the floor of `5 / -1` is `-5`. -/
theorem C6_counterexample :
    (foldEntries Storage.empty (List.replicate 4 (TradeEntry.ctor 0 "A" 1073741824 1))).hashmap_
      = [("A", Statistics.mk 0 0 1 0 4294967296)] ∧
    StatisticsCalculator.cleanup
      (foldEntries Storage.empty (List.replicate 4 (TradeEntry.ctor 0 "A" 1073741824 1)))
      = none ∧
    (Statistics.mk 0 0 1 (-1) 5).WellTyped ∧
    StatisticsCalculator.cleanup (Storage.mk [("A", Statistics.mk 0 0 1 (-1) 5)])
      = some (["A,0,-1,0,1"], Storage.empty) ∧
    ⌊((Statistics.mk 0 0 1 (-1) 5).weightedAvgPrice_ : ℚ)
        / ((Statistics.mk 0 0 1 (-1) 5).totalVolume_ : ℚ)⌋ = -5 := by
  refine ⟨by decide, by decide, by decide, by decide, ?_⟩
  norm_num

/-- Claim C6, amended: for every aggregator state in which every tracked
statistic has `totalVolume > 0`, `cleanup` returns exactly one line per
tracked symbol, the line of symbol `s` with statistic `st` being
`s,st.maxTimeGap,st.totalVolume,A,st.maxTradePrice` in decimal with
`A = floor (st.weightedPriceSum / st.totalVolume)`; on the spec's example the
result is the two lines `AAA,50,15,53,60` and `BBB,0,2,10,10` in some order. -/
theorem C6_cleanup_lines (S : Storage) (hnd : S.hashmap_.NodupKeys)
    (hpos : ∀ p ∈ S.hashmap_, 0 < p.2.totalVolume_ ∧ p.2.WellTyped) :
    (∃ lines, StatisticsCalculator.cleanup S = some (lines, Storage.empty) ∧
      lines = S.hashmap_.map (fun p => expectedLine p.1 p.2) ∧
      lines.length = (S.hashmap_.map Prod.fst).toFinset.card ∧
      ∀ s st, S.hashmap_.find s = some st → expectedLine s st ∈ lines) ∧
    (∃ lines, StatisticsCalculator.cleanup (foldEntries Storage.empty
        [TradeEntry.ctor 100 "AAA" 10 50, TradeEntry.ctor 150 "AAA" 5 60,
          TradeEntry.ctor 90 "BBB" 2 10]) = some (lines, Storage.empty) ∧
      lines.Perm ["AAA,50,15,53,60", "BBB,0,2,10,10"]) := by
  constructor
  · have hne : ∀ p ∈ S.hashmap_, toUInt64 p.2.totalVolume_ ≠ 0 := fun p hp =>
      (toUInt64_pos (hpos p hp).1 (hpos p hp).2.2.2.2.1.2).2
    have hmap : (S.hashmap_.map fun p =>
        StatisticsCalculator.line p (p.2.weightedAvgPrice_ / toUInt64 p.2.totalVolume_))
        = S.hashmap_.map (fun p => expectedLine p.1 p.2) :=
      List.map_congr_left fun p hp =>
        line_eq_expectedLine p (hpos p hp).1 (hpos p hp).2.2.2.2.1.2
    refine ⟨_, ?_, rfl, ?_, ?_⟩
    · unfold StatisticsCalculator.cleanup
      rw [formatAll_of_ne_zero _ hne, hmap]
      rfl
    · rw [List.length_map, List.toFinset_card_of_nodup hnd, List.length_map]
    · intro s st hfind
      exact List.mem_map.mpr ⟨(s, st), UnorderedMap.mem_of_find _ _ _ hfind, rfl⟩
  · exact ⟨["BBB,0,2,10,10", "AAA,50,15,53,60"], by decide, List.Perm.swap _ _ _⟩

/-- Witness for C6: the state after the three records of the spec's example. -/
theorem C6_cleanup_lines_witness :
    (∃ lines, StatisticsCalculator.cleanup
        (Storage.mk [("BBB", Statistics.mk 90 0 10 2 20), ("AAA", Statistics.mk 150 50 60 15 800)])
        = some (lines, Storage.empty) ∧
      lines = [("BBB", Statistics.mk 90 0 10 2 20), ("AAA", Statistics.mk 150 50 60 15 800)].map
        (fun p => expectedLine p.1 p.2) ∧
      lines.length = (([("BBB", Statistics.mk 90 0 10 2 20),
        ("AAA", Statistics.mk 150 50 60 15 800)] : UnorderedMap).map Prod.fst).toFinset.card ∧
      ∀ s st, UnorderedMap.find
        [("BBB", Statistics.mk 90 0 10 2 20), ("AAA", Statistics.mk 150 50 60 15 800)] s
          = some st → expectedLine s st ∈ lines) ∧
    (∃ lines, StatisticsCalculator.cleanup (foldEntries Storage.empty
        [TradeEntry.ctor 100 "AAA" 10 50, TradeEntry.ctor 150 "AAA" 5 60,
          TradeEntry.ctor 90 "BBB" 2 10]) = some (lines, Storage.empty) ∧
      lines.Perm ["AAA,50,15,53,60", "BBB,0,2,10,10"]) :=
  C6_cleanup_lines
    (Storage.mk [("BBB", Statistics.mk 90 0 10 2 20), ("AAA", Statistics.mk 150 50 60 15 800)])
    (by decide) (by decide)

/-- Claim C7 as stated fails: after the records `(0, A, 2147483647, 1)` and
`(0, A, 1, 1)`, both with positive quantity and price `1`, the stored
`totalVolume` is `-2147483648` and the average that `cleanup` reports is
`0`, below the smallest price `1`. -/
theorem C7_counterexample :
    (∀ r ∈ [TradeEntry.ctor 0 "A" 2147483647 1, TradeEntry.ctor 0 "A" 1 1],
      r.symbol_ = "A" ∧ r.WellTyped ∧ 0 < r.quantity_ ∧ 0 < r.price_ ∧ r.price_ = 1) ∧
    StatisticsCalculator.cleanup (foldEntries Storage.empty
        [TradeEntry.ctor 0 "A" 2147483647 1, TradeEntry.ctor 0 "A" 1 1])
      = some (["A,0,-2147483648,0,1"], Storage.empty) ∧
    ((foldEntries Storage.empty
        [TradeEntry.ctor 0 "A" 2147483647 1, TradeEntry.ctor 0 "A" 1 1]).hashmap_.find "A").bind
      Statistics.averagePrice = some 0 := by
  decide

/-- Claim C7, amended: for every symbol and every non-empty sequence of
records for it with positive quantities and prices, each `quantity * price`
at most `2147483647` and the quantities summing to at most `2147483647`, the
average price that `cleanup` reports lies in `[minPrice, maxPrice]`, the
smallest and the largest price among the folded records. -/
theorem C7_average_in_price_range (s : String) (rs : List TradeEntry) (hne : rs ≠ [])
    (h : ∀ r ∈ rs, r.symbol_ = s ∧ 0 < r.quantity_ ∧ 0 < r.price_ ∧
      r.quantity_ * r.price_ ≤ 2147483647)
    (hvol : sumQuantity rs ≤ 2147483647)
    (minPrice maxPrice : Int)
    (hmin : (∃ r ∈ rs, r.price_ = minPrice) ∧ ∀ r ∈ rs, minPrice ≤ r.price_)
    (hmax : (∃ r ∈ rs, r.price_ = maxPrice) ∧ ∀ r ∈ rs, r.price_ ≤ maxPrice) :
    ∃ st avg, (foldEntries Storage.empty rs).hashmap_ = [(s, st)] ∧
      st.averagePrice = some avg ∧
      StatisticsCalculator.cleanup (foldEntries Storage.empty rs)
        = some ([StatisticsCalculator.line (s, st) avg], Storage.empty) ∧
      minPrice ≤ (avg : Int) ∧ (avg : Int) ≤ maxPrice := by
  obtain ⟨st, hfind, htv, hw⟩ := exact_sums_single s rs hne h hvol
  have hpos : 0 < sumQuantity rs := sumQuantity_pos rs hne (fun r hr => (h r hr).2.1)
  cases rs with
  | nil => exact absurd rfl hne
  | cons e rs =>
    have hmap := hashmap_foldEntries_empty_single s e rs (fun r hr => (h r hr).1)
    have hst : st = updStats (Statistics.ctor e.timestamp_ e.quantity_ e.price_) rs := by
      rw [hmap, UnorderedMap.find_cons, if_pos rfl] at hfind
      exact (Option.some.inj hfind).symm
    rw [← hst] at hmap
    have hu := toUInt64_pos (i := st.totalVolume_) (by rw [htv]; exact hpos)
      (by rw [htv]; exact hvol)
    have havg : st.averagePrice
        = some (st.weightedAvgPrice_ / toUInt64 st.totalVolume_) := by
      simp [Statistics.averagePrice, hu.2]
    have hcast : ((st.weightedAvgPrice_ / toUInt64 st.totalVolume_ : Nat) : Int)
        = sumQuantityPrice (e :: rs) / sumQuantity (e :: rs) := by
      rw [Int.natCast_div, hw, hu.1, htv, Int.toNat_of_nonneg (le_of_lt hpos)]
    refine ⟨st, _, hmap, havg, ?_, ?_, ?_⟩
    · unfold StatisticsCalculator.cleanup
      rw [hmap]
      simp only [StatisticsCalculator.formatAll, StatisticsCalculator.formatEntry, havg]
      rfl
    · rw [hcast]
      exact Int.le_ediv_of_mul_le hpos
        (mul_sumQuantity_le _ _ (fun r hr => ⟨le_of_lt (h r hr).2.1, hmin.2 r hr⟩))
    · rw [hcast]
      exact Int.ediv_le_of_le_mul hpos
        (sumQuantityPrice_le_mul _ _ (fun r hr => ⟨le_of_lt (h r hr).2.1, hmax.2 r hr⟩))

/-- Witness for C7: the two `AAA` records of the spec's example, with prices
between `50` and `60`. -/
theorem C7_average_in_price_range_witness :
    ∃ st avg, (foldEntries Storage.empty
        [TradeEntry.ctor 100 "AAA" 10 50, TradeEntry.ctor 150 "AAA" 5 60]).hashmap_
        = [("AAA", st)] ∧
      st.averagePrice = some avg ∧
      StatisticsCalculator.cleanup (foldEntries Storage.empty
        [TradeEntry.ctor 100 "AAA" 10 50, TradeEntry.ctor 150 "AAA" 5 60])
        = some ([StatisticsCalculator.line ("AAA", st) avg], Storage.empty) ∧
      (50 : Int) ≤ (avg : Int) ∧ (avg : Int) ≤ 60 :=
  C7_average_in_price_range "AAA"
    [TradeEntry.ctor 100 "AAA" 10 50, TradeEntry.ctor 150 "AAA" 5 60]
    (by decide) (by decide) (by decide) 50 60 (by decide) (by decide)

/-- Claim C8 as stated fails: four records `(0, A, 1073741824, 1)`, each with
positive quantity and price, leave `totalVolume = 0` for `A`, and the
division of `cleanup` has no result. -/
theorem C8_counterexample :
    (∀ r ∈ List.replicate 4 (TradeEntry.ctor 0 "A" 1073741824 1),
      r.WellTyped ∧ 0 < r.quantity_ ∧ 0 < r.price_) ∧
    (foldEntries Storage.empty
        (List.replicate 4 (TradeEntry.ctor 0 "A" 1073741824 1))).hashmap_.find "A"
      = some (Statistics.mk 0 0 1 0 4294967296) ∧
    (Statistics.mk 0 0 1 0 4294967296).totalVolume_ = 0 ∧
    (Statistics.mk 0 0 1 0 4294967296).averagePrice = none := by
  decide

/-- Claim C8, amended: for every state reachable from the empty state by
folding records with quantity > 0 and price > 0 in which the quantities of
each symbol sum to at most `2147483647`, every tracked statistic has
`totalVolume > 0`, and the division performed by `cleanup` has a result for
every entry (`cleanup` returns its lines). -/
theorem C8_total_volume_positive (rs : List TradeEntry)
    (h : ∀ r ∈ rs, r.WellTyped ∧ 0 < r.quantity_ ∧ 0 < r.price_)
    (hvol : ∀ r ∈ rs, sumQuantity (rs.filter fun r' => r'.symbol_ = r.symbol_) ≤ 2147483647) :
    (∀ p ∈ (foldEntries Storage.empty rs).hashmap_,
      0 < p.2.totalVolume_ ∧ p.2.averagePrice ≠ none) ∧
    ∃ lines, StatisticsCalculator.cleanup (foldEntries Storage.empty rs)
      = some (lines, Storage.empty) := by
  have hnd : (foldEntries Storage.empty rs).hashmap_.NodupKeys :=
    nodupKeys_foldEntries rs Storage.empty List.nodup_nil
  have key : ∀ p ∈ (foldEntries Storage.empty rs).hashmap_,
      0 < p.2.totalVolume_ ∧ p.2.totalVolume_ ≤ 2147483647 := by
    intro p hp
    have hfind := UnorderedMap.find_of_mem _ hnd p.1 p.2 hp
    rw [find_foldEntries] at hfind
    obtain ⟨hne, htv⟩ := totalVolume_foldStat_none _ _ hfind
      (fun r hr => (h r (List.mem_of_mem_filter hr)).1.2.2)
    obtain ⟨r, hr⟩ := List.exists_mem_of_ne_nil _ hne
    have hrmem := List.mem_filter.mp hr
    have hsym : r.symbol_ = p.1 := by simpa using hrmem.2
    have hbound := hvol r hrmem.1
    rw [hsym] at hbound
    have hpos := sumQuantity_pos _ hne (fun r' hr' => (h r' (List.mem_of_mem_filter hr')).2.1)
    rw [htv, wrapInt_eq_self ⟨by omega, hbound⟩]
    exact ⟨hpos, hbound⟩
  have hne0 : ∀ p ∈ (foldEntries Storage.empty rs).hashmap_,
      toUInt64 p.2.totalVolume_ ≠ 0 := fun p hp =>
    (toUInt64_pos (key p hp).1 (key p hp).2).2
  constructor
  · intro p hp
    refine ⟨(key p hp).1, ?_⟩
    simp [Statistics.averagePrice, hne0 p hp]
  · refine ⟨(foldEntries Storage.empty rs).hashmap_.map fun p =>
      StatisticsCalculator.line p (p.2.weightedAvgPrice_ / toUInt64 p.2.totalVolume_), ?_⟩
    unfold StatisticsCalculator.cleanup
    rw [formatAll_of_ne_zero _ hne0]
    rfl

/-- Witness for C8: the three records of the spec's example. -/
theorem C8_total_volume_positive_witness :
    (∀ p ∈ (foldEntries Storage.empty [TradeEntry.ctor 100 "AAA" 10 50,
        TradeEntry.ctor 150 "AAA" 5 60, TradeEntry.ctor 90 "BBB" 2 10]).hashmap_,
      0 < p.2.totalVolume_ ∧ p.2.averagePrice ≠ none) ∧
    ∃ lines, StatisticsCalculator.cleanup (foldEntries Storage.empty
        [TradeEntry.ctor 100 "AAA" 10 50, TradeEntry.ctor 150 "AAA" 5 60,
          TradeEntry.ctor 90 "BBB" 2 10]) = some (lines, Storage.empty) :=
  C8_total_volume_positive [TradeEntry.ctor 100 "AAA" 10 50,
    TradeEntry.ctor 150 "AAA" 5 60, TradeEntry.ctor 90 "BBB" 2 10] (by decide) (by decide)

/-- Claim C9 as stated fails in two places.  After four records
`(0, A, 1073741824, 1)`, each with positive quantity and price, the tracked
`totalVolume` is `0` and `cleanup` divides by zero: it does not return, so no
empty state follows it.  And after a `cleanup` that does return, the record
`(0, A, 65536, 65536)` for the symbol `A` tracked before is inserted with
`weightedAvgPrice_ = 0`, not with the total `4294967296` of that record (the
`int` product of the constructor). -/
theorem C9_counterexample :
    (∀ r ∈ List.replicate 4 (TradeEntry.ctor 0 "A" 1073741824 1),
      r.WellTyped ∧ 0 < r.quantity_ ∧ 0 < r.price_) ∧
    (foldEntries Storage.empty
        (List.replicate 4 (TradeEntry.ctor 0 "A" 1073741824 1))).hashmap_
      = [("A", Statistics.mk 0 0 1 0 4294967296)] ∧
    StatisticsCalculator.cleanup (foldEntries Storage.empty
        (List.replicate 4 (TradeEntry.ctor 0 "A" 1073741824 1))) = none ∧
    StatisticsCalculator.cleanup (foldEntries Storage.empty [TradeEntry.ctor 0 "A" 1 1])
      = some (["A,0,1,1,1"], Storage.empty) ∧
    (StatisticsCalculator.addTradeEntry Storage.empty
        (TradeEntry.ctor 0 "A" 65536 65536)).hashmap_
      = [("A", Statistics.mk 0 0 65536 65536 0)] ∧
    ((Statistics.mk 0 0 65536 65536 0).weightedAvgPrice_ : Int)
      ≠ (TradeEntry.ctor 0 "A" 65536 65536).quantity_
        * (TradeEntry.ctor 0 "A" 65536 65536).price_ := by
  decide

/-- Claim C9, amended: for every aggregator state in which no tracked
statistic has `totalVolume = 0`, `cleanup` returns and leaves the empty
initial state: a second `cleanup` right after it returns an empty vector, and
an `addTradeEntry` for any symbol (also one tracked before the `cleanup`) is
handled as a first sighting, the map then holding only the statistic of that
single record: `maxTimeGap = 0`, `totalVolume = qty`, `maxTradePrice = price`,
`lastTimestamp = ts`, and, when `qty * price` fits in a 32-bit `int`,
`weightedPriceSum = qty * price mod 2^64`, which is `qty * price` itself when
the product is not negative. -/
theorem C9_cleanup_resets (S : Storage)
    (hvol : ∀ p ∈ S.hashmap_, p.2.WellTyped ∧ p.2.totalVolume_ ≠ 0) :
    ∃ lines S', StatisticsCalculator.cleanup S = some (lines, S') ∧
      S' = Storage.empty ∧
      StatisticsCalculator.cleanup S' = some ([], Storage.empty) ∧
      ∀ e : TradeEntry, ∃ st,
        (StatisticsCalculator.addTradeEntry S' e).hashmap_ = [(e.symbol_, st)] ∧
        st.maxTimeGap_ = 0 ∧
        st.totalVolume_ = e.quantity_ ∧
        st.maxTradePrice_ = e.price_ ∧
        st.lastTimestamp_ = e.timestamp_ ∧
        (isInt (e.quantity_ * e.price_) →
          st.weightedAvgPrice_ = toUInt64 (e.quantity_ * e.price_)) ∧
        (0 ≤ e.quantity_ * e.price_ → e.quantity_ * e.price_ ≤ 2147483647 →
          (st.weightedAvgPrice_ : Int) = e.quantity_ * e.price_) := by
  have hne0 : ∀ p ∈ S.hashmap_, toUInt64 p.2.totalVolume_ ≠ 0 := by
    intro p hp
    have hi := (hvol p hp).1.2.2.2.1
    have hz := (hvol p hp).2
    unfold isInt at hi
    unfold toUInt64
    omega
  refine ⟨S.hashmap_.map fun p =>
      StatisticsCalculator.line p (p.2.weightedAvgPrice_ / toUInt64 p.2.totalVolume_),
    Storage.empty, ?_, rfl, rfl, ?_⟩
  · unfold StatisticsCalculator.cleanup
    rw [formatAll_of_ne_zero _ hne0]
    rfl
  · intro e
    refine ⟨Statistics.ctor e.timestamp_ e.quantity_ e.price_, ?_, rfl, rfl, rfl, rfl, ?_, ?_⟩
    · rw [addTradeEntry_first Storage.empty e rfl]
      rfl
    · intro hprod
      show toUInt64 (wrapInt (e.quantity_ * e.price_)) = _
      rw [wrapInt_eq_self hprod]
    · intro h0 h1
      show (toUInt64 (wrapInt (e.quantity_ * e.price_)) : Int) = _
      rw [wrapInt_eq_self ⟨by omega, h1⟩, toUInt64_eq_self h0 (by omega)]

/-- Witness for C9: the state after the three records of the spec's example. -/
theorem C9_cleanup_resets_witness :
    ∃ lines S', StatisticsCalculator.cleanup
        (Storage.mk [("BBB", Statistics.mk 90 0 10 2 20), ("AAA", Statistics.mk 150 50 60 15 800)])
        = some (lines, S') ∧
      S' = Storage.empty ∧
      StatisticsCalculator.cleanup S' = some ([], Storage.empty) ∧
      ∀ e : TradeEntry, ∃ st,
        (StatisticsCalculator.addTradeEntry S' e).hashmap_ = [(e.symbol_, st)] ∧
        st.maxTimeGap_ = 0 ∧
        st.totalVolume_ = e.quantity_ ∧
        st.maxTradePrice_ = e.price_ ∧
        st.lastTimestamp_ = e.timestamp_ ∧
        (isInt (e.quantity_ * e.price_) →
          st.weightedAvgPrice_ = toUInt64 (e.quantity_ * e.price_)) ∧
        (0 ≤ e.quantity_ * e.price_ → e.quantity_ * e.price_ ≤ 2147483647 →
          (st.weightedAvgPrice_ : Int) = e.quantity_ * e.price_) :=
  C9_cleanup_resets
    (Storage.mk [("BBB", Statistics.mk 90 0 10 2 20), ("AAA", Statistics.mk 150 50 60 15 800)])
    (by decide)

/-- Claim C10: for every sequence of records of a single symbol and every
permutation of it, folding the permuted sequence from the empty state gives
the same `totalVolume` and the same `weightedPriceSum` as folding the
original sequence. -/
theorem C10_order_independence (s : String) (rs rs' : List TradeEntry)
    (hperm : rs.Perm rs') (h : ∀ r ∈ rs, r.symbol_ = s ∧ r.WellTyped) :
    ((foldEntries Storage.empty rs).hashmap_.find s).map (fun st => st.totalVolume_)
      = ((foldEntries Storage.empty rs').hashmap_.find s).map (fun st => st.totalVolume_) ∧
    ((foldEntries Storage.empty rs).hashmap_.find s).map (fun st => st.weightedAvgPrice_)
      = ((foldEntries Storage.empty rs').hashmap_.find s).map
          (fun st => st.weightedAvgPrice_) := by
  have h' : ∀ r ∈ rs', r.symbol_ = s ∧ r.WellTyped := fun r hr => h r (hperm.mem_iff.mpr hr)
  have hq : sumQuantity rs = sumQuantity rs' := (hperm.map _).sum_eq
  have ha : sumAddends rs = sumAddends rs' := (hperm.map _).sum_eq
  cases rs with
  | nil =>
    have : rs' = [] := List.Perm.eq_nil hperm.symm
    subst this
    exact ⟨rfl, rfl⟩
  | cons e rs =>
    cases rs' with
    | nil => exact absurd (List.Perm.eq_nil hperm) (by simp)
    | cons e' rs' =>
      obtain ⟨st, hf, htv, hw⟩ := sums_foldEntries_single s e rs
        (fun r hr => (h r hr).1) (h e (List.mem_cons_self _ _)).2.2.2
      obtain ⟨st', hf', htv', hw'⟩ := sums_foldEntries_single s e' rs'
        (fun r hr => (h' r hr).1) (h' e' (List.mem_cons_self _ _)).2.2.2
      rw [hf, hf']
      simp only [Option.map_some']
      rw [htv, htv', hw, hw', hq, ha]
      exact ⟨rfl, rfl⟩

/-- Witness for C10: the two `AAA` records of the spec's example, swapped. -/
theorem C10_order_independence_witness :
    ((foldEntries Storage.empty [TradeEntry.ctor 100 "AAA" 10 50,
        TradeEntry.ctor 150 "AAA" 5 60]).hashmap_.find "AAA").map (fun st => st.totalVolume_)
      = ((foldEntries Storage.empty [TradeEntry.ctor 150 "AAA" 5 60,
        TradeEntry.ctor 100 "AAA" 10 50]).hashmap_.find "AAA").map (fun st => st.totalVolume_) ∧
    ((foldEntries Storage.empty [TradeEntry.ctor 100 "AAA" 10 50,
        TradeEntry.ctor 150 "AAA" 5 60]).hashmap_.find "AAA").map
          (fun st => st.weightedAvgPrice_)
      = ((foldEntries Storage.empty [TradeEntry.ctor 150 "AAA" 5 60,
        TradeEntry.ctor 100 "AAA" 10 50]).hashmap_.find "AAA").map
          (fun st => st.weightedAvgPrice_) :=
  C10_order_independence "AAA"
    [TradeEntry.ctor 100 "AAA" 10 50, TradeEntry.ctor 150 "AAA" 5 60]
    [TradeEntry.ctor 150 "AAA" 5 60, TradeEntry.ctor 100 "AAA" 10 50]
    (List.Perm.swap _ _ _) (by decide)

/-- Claim C11: for every state holding a statistic `st` for the symbol of a
record whose timestamp `ts` is smaller than `st.lastTimestamp`,
`addTradeEntry` takes the gap to be the wrapped unsigned 64-bit value
`2^64 - (st.lastTimestamp - ts)` and sets `maxTimeGap` to the maximum of
`st.maxTimeGap` and that value.  The gap is not clamped (it is positive, and
so is the new `maxTimeGap`) and the record is not rejected (the statistic
stored afterwards is the update of `st` by the record, with
`lastTimestamp = ts`). -/
theorem C11_out_of_order_timestamp_wraps (S : Storage) (e : TradeEntry) (st : Statistics)
    (hfind : S.hashmap_.find e.symbol_ = some st) (hst : st.WellTyped) (he : e.WellTyped)
    (hlt : e.timestamp_ < st.lastTimestamp_) :
    ∃ st', (StatisticsCalculator.addTradeEntry S e).hashmap_.find e.symbol_ = some st' ∧
      st'.maxTimeGap_ = max st.maxTimeGap_
        (18446744073709551616 - (st.lastTimestamp_ - e.timestamp_)) ∧
      0 < 18446744073709551616 - (st.lastTimestamp_ - e.timestamp_) ∧
      0 < st'.maxTimeGap_ ∧
      st' = st.update e.timestamp_ e.quantity_ e.price_ ∧
      st'.lastTimestamp_ = e.timestamp_ := by
  have hgap : toUInt64 ((e.timestamp_ : Int) - (st.lastTimestamp_ : Int))
      = 18446744073709551616 - (st.lastTimestamp_ - e.timestamp_) := by
    rw [toUInt64_sub_eq_timeGap hst.1 he.1]
    unfold timeGap
    rw [if_neg (by omega)]
  have hpos : 0 < 18446744073709551616 - (st.lastTimestamp_ - e.timestamp_) := by
    have := hst.1
    unfold isUInt64 at this
    omega
  refine ⟨st.update e.timestamp_ e.quantity_ e.price_, ?_, ?_, hpos, ?_, rfl, rfl⟩
  · rw [find_addTradeEntry, if_pos rfl, hfind]; rfl
  · rw [maxTimeGap_update, hgap]
  · rw [maxTimeGap_update, hgap]
    exact lt_of_lt_of_le hpos (le_max_right _ _)

/-- Witness for C11: after a trade at time `10`, a trade at time `5`. -/
theorem C11_out_of_order_timestamp_wraps_witness :
    ∃ st', (StatisticsCalculator.addTradeEntry
        (Storage.mk [("A", Statistics.ctor 10 1 1)])
        (TradeEntry.ctor 5 "A" 1 1)).hashmap_.find "A" = some st' ∧
      st'.maxTimeGap_ = max 0 (18446744073709551616 - (10 - 5)) ∧
      0 < 18446744073709551616 - (10 - 5) ∧
      0 < st'.maxTimeGap_ ∧
      st' = (Statistics.ctor 10 1 1).update 5 1 1 ∧
      st'.lastTimestamp_ = 5 :=
  C11_out_of_order_timestamp_wraps (Storage.mk [("A", Statistics.ctor 10 1 1)])
    (TradeEntry.ctor 5 "A" 1 1) (Statistics.ctor 10 1 1)
    (by decide) (by decide) (by decide) (by decide)

/-- Claim C12: for every state holding a statistic for the symbol of a
record, whatever the record's timestamp, quantity and price, `maxTradePrice`
and `maxTimeGap` of the symbol after `addTradeEntry` are each at least their
values before. -/
theorem C12_running_maxima_monotone (S : Storage) (e : TradeEntry) (st : Statistics)
    (hfind : S.hashmap_.find e.symbol_ = some st) :
    ∃ st', (StatisticsCalculator.addTradeEntry S e).hashmap_.find e.symbol_ = some st' ∧
      st.maxTradePrice_ ≤ st'.maxTradePrice_ ∧ st.maxTimeGap_ ≤ st'.maxTimeGap_ := by
  refine ⟨st.update e.timestamp_ e.quantity_ e.price_, ?_, ?_, ?_⟩
  · rw [find_addTradeEntry, if_pos rfl, hfind]; rfl
  · exact le_max_right e.price_ st.maxTradePrice_
  · rw [maxTimeGap_update]
    exact le_max_left _ _

/-- Witness for C12: a cheaper, earlier trade after the first one. -/
theorem C12_running_maxima_monotone_witness :
    ∃ st', (StatisticsCalculator.addTradeEntry
        (Storage.mk [("A", Statistics.ctor 10 1 7)])
        (TradeEntry.ctor 5 "A" 1 3)).hashmap_.find "A" = some st' ∧
      (Statistics.ctor 10 1 7).maxTradePrice_ ≤ st'.maxTradePrice_ ∧
      (Statistics.ctor 10 1 7).maxTimeGap_ ≤ st'.maxTimeGap_ :=
  C12_running_maxima_monotone (Storage.mk [("A", Statistics.ctor 10 1 7)])
    (TradeEntry.ctor 5 "A" 1 3) (Statistics.ctor 10 1 7) (by decide)

/-- Claim C13 as stated fails: the state holds `totalVolume = 2147483647` for
`A` and the record `(1, A, 1, 1)`, with positive quantity and price, arrives;
`totalVolume` drops to `-2147483648`. -/
theorem C13_counterexample :
    (Storage.mk [("A", Statistics.mk 0 0 1 2147483647 2147483647)]).hashmap_.find
        (TradeEntry.ctor 1 "A" 1 1).symbol_
      = some (Statistics.mk 0 0 1 2147483647 2147483647) ∧
    (Statistics.mk 0 0 1 2147483647 2147483647).WellTyped ∧
    (TradeEntry.ctor 1 "A" 1 1).WellTyped ∧
    0 < (TradeEntry.ctor 1 "A" 1 1).quantity_ ∧ 0 < (TradeEntry.ctor 1 "A" 1 1).price_ ∧
    ((StatisticsCalculator.addTradeEntry
        (Storage.mk [("A", Statistics.mk 0 0 1 2147483647 2147483647)])
        (TradeEntry.ctor 1 "A" 1 1)).hashmap_.find "A").map (fun st => st.totalVolume_)
      = some (-2147483648) ∧
    (-2147483648 : Int) < (Statistics.mk 0 0 1 2147483647 2147483647).totalVolume_ := by
  decide

/-- Claim C13, amended: for every state holding a statistic `st` for the
symbol of a record with quantity > 0 and price > 0, such that
`st.totalVolume + qty` and `qty * price` are at most `2147483647` and
`st.weightedPriceSum + qty * price` is below `2^64`, `totalVolume` and
`weightedPriceSum` of the symbol after `addTradeEntry` are each at least
their values before. -/
theorem C13_running_sums_monotone (S : Storage) (e : TradeEntry) (st : Statistics)
    (hfind : S.hashmap_.find e.symbol_ = some st) (hst : st.WellTyped)
    (hq : 0 < e.quantity_) (hp : 0 < e.price_)
    (hvol : st.totalVolume_ + e.quantity_ ≤ 2147483647)
    (hprod : e.quantity_ * e.price_ ≤ 2147483647)
    (hsum : (st.weightedAvgPrice_ : Int) + e.quantity_ * e.price_ < 18446744073709551616) :
    ∃ st', (StatisticsCalculator.addTradeEntry S e).hashmap_.find e.symbol_ = some st' ∧
      st.totalVolume_ ≤ st'.totalVolume_ ∧ st.weightedAvgPrice_ ≤ st'.weightedAvgPrice_ := by
  refine ⟨st.update e.timestamp_ e.quantity_ e.price_, ?_, ?_, ?_⟩
  · rw [find_addTradeEntry, if_pos rfl, hfind]; rfl
  · show st.totalVolume_ ≤ wrapInt (st.totalVolume_ + e.quantity_)
    have := hst.2.2.2.1
    rw [wrapInt_eq_self ⟨by unfold isInt at this; omega, hvol⟩]
    omega
  · show st.weightedAvgPrice_ ≤ (st.weightedAvgPrice_
        + toUInt64 (wrapInt (e.quantity_ * e.price_))) % 18446744073709551616
    have hpos : 0 < e.quantity_ * e.price_ := mul_pos hq hp
    rw [wrapInt_eq_self ⟨by omega, hprod⟩]
    generalize e.quantity_ * e.price_ = x at hpos hsum
    unfold toUInt64
    omega

/-- Witness for C13: the second `AAA` record of the spec's example. -/
theorem C13_running_sums_monotone_witness :
    ∃ st', (StatisticsCalculator.addTradeEntry
        (Storage.mk [("AAA", Statistics.ctor 100 10 50)])
        (TradeEntry.ctor 150 "AAA" 5 60)).hashmap_.find "AAA" = some st' ∧
      (Statistics.ctor 100 10 50).totalVolume_ ≤ st'.totalVolume_ ∧
      (Statistics.ctor 100 10 50).weightedAvgPrice_ ≤ st'.weightedAvgPrice_ :=
  C13_running_sums_monotone (Storage.mk [("AAA", Statistics.ctor 100 10 50)])
    (TradeEntry.ctor 150 "AAA" 5 60) (Statistics.ctor 100 10 50)
    (by decide) (by decide) (by decide) (by decide) (by decide) (by decide) (by decide)

/-- Claim C14 as stated fails for symbols shorter than the sort key: with the
symbols `AT` and `AT&T` tracked, `cleanup` returns the lines `AT&T,0,1,1,1`
and `AT,0,1,1,1`, and `save` with `sym_len = 3` compares `AT&` with `AT,` and
writes the line of `AT&T` first, in either input order, although `AT` is the
smaller symbol. -/
theorem C14_counterexample :
    StatisticsCalculator.cleanup (foldEntries Storage.empty
        [TradeEntry.ctor 1 "AT" 1 1, TradeEntry.ctor 1 "AT&T" 1 1])
      = some (["AT&T,0,1,1,1", "AT,0,1,1,1"], Storage.empty) ∧
    Outputter.save ["AT&T,0,1,1,1", "AT,0,1,1,1"] 3 = ["AT&T,0,1,1,1", "AT,0,1,1,1"] ∧
    Outputter.save ["AT,0,1,1,1", "AT&T,0,1,1,1"] 3 = ["AT&T,0,1,1,1", "AT,0,1,1,1"] ∧
    List.Lex (fun x y : Char => x.toNat < y.toNat) "AT".data "AT&T".data := by
  refine ⟨by decide, by decide, by decide, ?_⟩
  exact (strLess_iff_lex _ _).mp (by decide)

/-- Claim C14, amended: for every vector of summary lines produced by
`cleanup` (one per distinct symbol) in which every symbol has exactly 3
characters, the width of the default sort key, `Outputter::save` with
`sym_len = 3` writes the lines in ascending order of their symbols: the
written lines are those of a rearrangement of the tracked entries whose
symbols increase strictly from each line to the next. -/
theorem C14_save_orders_three_character_symbols (S : Storage) (lines : List String)
    (S' : Storage) (hnd : S.hashmap_.NodupKeys) (hlen : ∀ p ∈ S.hashmap_, p.1.length = 3)
    (hc : StatisticsCalculator.cleanup S = some (lines, S')) :
    ∃ sorted : UnorderedMap, sorted.Perm S.hashmap_ ∧
      Outputter.save lines 3 = sorted.map (fun p =>
        StatisticsCalculator.line p (p.2.weightedAvgPrice_ / toUInt64 p.2.totalVolume_)) ∧
      List.Chain' (fun p q : String × Statistics =>
        List.Lex (fun x y : Char => x.toNat < y.toNat) p.1.data q.1.data) sorted := by
  have hfa : StatisticsCalculator.formatAll S.hashmap_ = some lines := by
    unfold StatisticsCalculator.cleanup at hc
    cases hf : StatisticsCalculator.formatAll S.hashmap_ with
    | none => rw [hf] at hc; exact Option.noConfusion hc
    | some retvec =>
      rw [hf] at hc
      simp only [Option.some.injEq, Prod.mk.injEq] at hc
      rw [hc.1]
  obtain ⟨_, hlines⟩ := formatAll_some _ _ hfa
  have hperm := perm_stdSort (fun p q : String × Statistics =>
      strLess (substr (StatisticsCalculator.line p
          (p.2.weightedAvgPrice_ / toUInt64 p.2.totalVolume_)) 0 3).data
        (substr (StatisticsCalculator.line q
          (q.2.weightedAvgPrice_ / toUInt64 q.2.totalVolume_)) 0 3).data) S.hashmap_
  have hpw := pairwise_stdSort (fun p q : String × Statistics =>
      strLess (substr (StatisticsCalculator.line p
          (p.2.weightedAvgPrice_ / toUInt64 p.2.totalVolume_)) 0 3).data
        (substr (StatisticsCalculator.line q
          (q.2.weightedAvgPrice_ / toUInt64 q.2.totalVolume_)) 0 3).data)
    (fun a b h => strLess_asymm _ _ h) (fun a b c h1 h2 => strLess_trans _ _ _ h1 h2)
    S.hashmap_
  refine ⟨_, hperm, ?_, ?_⟩
  · unfold Outputter.save
    rw [toUInt64_three, hlines, stdSort_map]
  · have hnd' : List.Pairwise (fun p q : String × Statistics => p.1 ≠ q.1)
        (stdSort (fun p q : String × Statistics =>
          strLess (substr (StatisticsCalculator.line p
              (p.2.weightedAvgPrice_ / toUInt64 p.2.totalVolume_)) 0 3).data
            (substr (StatisticsCalculator.line q
              (q.2.weightedAvgPrice_ / toUInt64 q.2.totalVolume_)) 0 3).data) S.hashmap_) := by
      have h1 : (S.hashmap_.map Prod.fst).Nodup := hnd
      have h2 := ((hperm.map Prod.fst).nodup_iff).mpr h1
      exact List.pairwise_map.mp h2
    refine List.Pairwise.chain' ?_
    refine List.Pairwise.imp_of_mem ?_ (hpw.and hnd')
    intro p q hp hq hpq
    obtain ⟨hqp, hneq⟩ := hpq
    have hp3 := hlen p (hperm.mem_iff.mp hp)
    have hq3 := hlen q (hperm.mem_iff.mp hq)
    simp only [data_substr_zero, take_line _ _ 3 hp3, take_line _ _ 3 hq3] at hqp
    cases hlt : strLess p.1.data q.1.data with
    | true => exact (strLess_iff_lex _ _).mp hlt
    | false =>
      have hdata := strLess_connex _ _ hlt hqp
      exact absurd (String.ext hdata) hneq

/-- Witness for C14: the state after the three records of the spec's example,
whose symbols `AAA` and `BBB` have three characters. -/
theorem C14_save_orders_three_character_symbols_witness :
    ∃ sorted : UnorderedMap,
      sorted.Perm [("BBB", Statistics.mk 90 0 10 2 20), ("AAA", Statistics.mk 150 50 60 15 800)] ∧
      Outputter.save ["BBB,0,2,10,10", "AAA,50,15,53,60"] 3 = sorted.map (fun p =>
        StatisticsCalculator.line p (p.2.weightedAvgPrice_ / toUInt64 p.2.totalVolume_)) ∧
      List.Chain' (fun p q : String × Statistics =>
        List.Lex (fun x y : Char => x.toNat < y.toNat) p.1.data q.1.data) sorted :=
  C14_save_orders_three_character_symbols
    (Storage.mk [("BBB", Statistics.mk 90 0 10 2 20), ("AAA", Statistics.mk 150 50 60 15 800)])
    ["BBB,0,2,10,10", "AAA,50,15,53,60"] Storage.empty (by decide) (by decide) (by decide)

/-- Claim C16 as stated fails for lines with more than four fields: the line
`1,A,5,10,99` has five fields, `checkInput` rejects only fewer than four, and
the record `(1, A, 5, 10)` built from its first four fields reaches
`addTradeEntry`. -/
theorem C16_counterexample :
    (Parser.tokenize "1,A,5,10,99").length = 5 ∧
    Parser.parseLine "1,A,5,10,99" 4 = Outcome.value (TradeEntry.ctor 1 "A" 5 10) ∧
    Parser.parseFile Storage.empty "1,A,5,10,99" 4
      = (Storage.mk [("A", Statistics.ctor 1 5 10)], Outcome.value ()) := by
  decide

/-- Claim C16, amended: for every input line with fewer than 4
comma-separated fields, `parseFile` raises `invalid_argument` on that line and
no record of it reaches `addTradeEntry`: the storage is left as it was.  (A
line with more than 4 fields is not rejected for its field count.) -/
theorem C16_too_few_fields_rejected (line : String) (S : Storage) (rest : List String)
    (hshort : (Parser.tokenize line).length < 4) :
    Parser.parseLine line 4 = Outcome.raised Exception.invalid_argument ∧
    Parser.parseLines S (line :: rest) 4 = (S, Outcome.raised Exception.invalid_argument) ∧
    Parser.passedEntries (line :: rest) 4 = [] := by
  have hl := parseLine_raised line _ (checkInput_short _ hshort)
  refine ⟨hl, parseLines_raised S line rest _ hl, ?_⟩
  unfold Parser.passedEntries
  simp only [hl]

/-- Witness for C16: the line `1,A,5` with three fields. -/
theorem C16_too_few_fields_rejected_witness :
    Parser.parseLine "1,A,5" 4 = Outcome.raised Exception.invalid_argument ∧
    Parser.parseLines Storage.empty ("1,A,5" :: ["2,B,1,1"]) 4
      = (Storage.empty, Outcome.raised Exception.invalid_argument) ∧
    Parser.passedEntries ("1,A,5" :: ["2,B,1,1"]) 4 = [] :=
  C16_too_few_fields_rejected "1,A,5" Storage.empty ["2,B,1,1"] (by decide)

/-- Claim C17 as stated fails in its last part.  After the single record
`(0, A, 0, 1)`, and also after four records `(0, A, 1073741824, 1)`, one
symbol is tracked but its `totalVolume` is `0`: `cleanup` divides by zero
and returns no line. -/
theorem C17_counterexample :
    (foldEntries Storage.empty [TradeEntry.ctor 0 "A" 0 1]).hashmap_.map Prod.fst = ["A"] ∧
    StatisticsCalculator.cleanup (foldEntries Storage.empty [TradeEntry.ctor 0 "A" 0 1])
      = none ∧
    (foldEntries Storage.empty
        (List.replicate 4 (TradeEntry.ctor 0 "A" 1073741824 1))).hashmap_.map Prod.fst
      = ["A"] ∧
    StatisticsCalculator.cleanup (foldEntries Storage.empty
        (List.replicate 4 (TradeEntry.ctor 0 "A" 1073741824 1))) = none := by
  decide

/-- Claim C17, amended: for every finite sequence of records folded from the
empty state, the set of tracked symbols is the set of symbols occurring in
the sequence, each tracked once; `addTradeEntry` never removes a symbol; so,
when no tracked statistic has `totalVolume = 0`, `cleanup` returns as many
lines as there are distinct symbols in the sequence.  The first three parts
hold for every sequence; only the line count needs the condition (with the
records' fields in the range of their types). -/
theorem C17_tracked_symbols (rs : List TradeEntry) :
    ((foldEntries Storage.empty rs).hashmap_.map Prod.fst).toFinset
      = (rs.map fun r => r.symbol_).toFinset ∧
    (foldEntries Storage.empty rs).hashmap_.NodupKeys ∧
    (∀ (S : Storage) (e : TradeEntry) (s : String), s ∈ S.hashmap_.map Prod.fst →
      s ∈ (StatisticsCalculator.addTradeEntry S e).hashmap_.map Prod.fst) ∧
    ((∀ r ∈ rs, r.WellTyped) →
      (∀ p ∈ (foldEntries Storage.empty rs).hashmap_, p.2.totalVolume_ ≠ 0) →
      ∃ lines, StatisticsCalculator.cleanup (foldEntries Storage.empty rs)
          = some (lines, Storage.empty) ∧
        lines.length = (rs.map fun r => r.symbol_).toFinset.card) := by
  have hnd : (foldEntries Storage.empty rs).hashmap_.NodupKeys :=
    nodupKeys_foldEntries rs Storage.empty List.nodup_nil
  have hset : ((foldEntries Storage.empty rs).hashmap_.map Prod.fst).toFinset
      = (rs.map fun r => r.symbol_).toFinset := by
    ext s
    rw [List.mem_toFinset, List.mem_toFinset]
    exact mem_keys_foldEntries rs s
  refine ⟨hset, hnd, ?_, ?_⟩
  · intro S e s hs
    have h1 : S.hashmap_.find s ≠ none := fun hn =>
      (UnorderedMap.find_eq_none_iff _ _).mp hn hs
    by_contra hcon
    have h2 := (UnorderedMap.find_eq_none_iff _ _).mpr hcon
    rw [find_addTradeEntry] at h2
    by_cases hsym : e.symbol_ = s
    · rw [if_pos hsym] at h2; exact Option.noConfusion h2
    · rw [if_neg hsym] at h2; exact h1 h2
  · intro hwt hvol
    have hne0 : ∀ p ∈ (foldEntries Storage.empty rs).hashmap_,
        toUInt64 p.2.totalVolume_ ≠ 0 := by
      intro p hp
      have hi := isInt_totalVolume_foldEntries rs hwt p hp
      have hz := hvol p hp
      unfold isInt at hi
      unfold toUInt64
      omega
    have hfa := formatAll_of_ne_zero _ hne0
    refine ⟨(foldEntries Storage.empty rs).hashmap_.map fun p =>
      StatisticsCalculator.line p (p.2.weightedAvgPrice_ / toUInt64 p.2.totalVolume_), ?_, ?_⟩
    · unfold StatisticsCalculator.cleanup
      rw [hfa]
      rfl
    · rw [List.length_map, ← hset, List.toFinset_card_of_nodup hnd, List.length_map]

/-- Witness for C17: the three records of the spec's example, where the
condition of the line count holds. -/
theorem C17_tracked_symbols_witness :
    ((foldEntries Storage.empty [TradeEntry.ctor 100 "AAA" 10 50,
        TradeEntry.ctor 150 "AAA" 5 60, TradeEntry.ctor 90 "BBB" 2 10]).hashmap_.map
          Prod.fst).toFinset
      = ([TradeEntry.ctor 100 "AAA" 10 50, TradeEntry.ctor 150 "AAA" 5 60,
          TradeEntry.ctor 90 "BBB" 2 10].map fun r => r.symbol_).toFinset ∧
    (foldEntries Storage.empty [TradeEntry.ctor 100 "AAA" 10 50,
        TradeEntry.ctor 150 "AAA" 5 60, TradeEntry.ctor 90 "BBB" 2 10]).hashmap_.NodupKeys ∧
    ∃ lines, StatisticsCalculator.cleanup (foldEntries Storage.empty
        [TradeEntry.ctor 100 "AAA" 10 50, TradeEntry.ctor 150 "AAA" 5 60,
          TradeEntry.ctor 90 "BBB" 2 10]) = some (lines, Storage.empty) ∧
      lines.length = ([TradeEntry.ctor 100 "AAA" 10 50, TradeEntry.ctor 150 "AAA" 5 60,
          TradeEntry.ctor 90 "BBB" 2 10].map fun r => r.symbol_).toFinset.card :=
  ⟨(C17_tracked_symbols [TradeEntry.ctor 100 "AAA" 10 50,
      TradeEntry.ctor 150 "AAA" 5 60, TradeEntry.ctor 90 "BBB" 2 10]).1,
    (C17_tracked_symbols [TradeEntry.ctor 100 "AAA" 10 50,
      TradeEntry.ctor 150 "AAA" 5 60, TradeEntry.ctor 90 "BBB" 2 10]).2.1,
    (C17_tracked_symbols [TradeEntry.ctor 100 "AAA" 10 50,
      TradeEntry.ctor 150 "AAA" 5 60, TradeEntry.ctor 90 "BBB" 2 10]).2.2.2
      (by decide) (by decide)⟩

/-- Claim C18: for every vector of lines and every `sym_len >= 0`, the
sequence that `Outputter::save` writes is a permutation of the input vector,
and for consecutive written lines the prefix made of the first `sym_len`
characters of the earlier line is equal to or lexicographically smaller than
that of the later line. -/
theorem C18_save_sorted_permutation (vec : List String) (sym_len : Int)
    (h0 : 0 ≤ sym_len) (hint : sym_len ≤ 2147483647) :
    (Outputter.save vec sym_len).Perm vec ∧
    List.Chain' (fun a b =>
        a.data.take sym_len.toNat = b.data.take sym_len.toNat ∨
        List.Lex (fun x y : Char => x.toNat < y.toNat)
          (a.data.take sym_len.toNat) (b.data.take sym_len.toNat))
      (Outputter.save vec sym_len) := by
  unfold Outputter.save
  rw [toUInt64_of_int h0 hint]
  refine ⟨perm_stdSort _ vec, ?_⟩
  have hp := pairwise_stdSort
    (fun a b : String => strLess (substr a 0 sym_len.toNat).data (substr b 0 sym_len.toNat).data)
    (saveComp_asymm sym_len.toNat) (saveComp_trans sym_len.toNat) vec
  refine List.Chain'.imp ?_ hp.chain'
  intro a b hba
  simp only [data_substr_zero] at hba
  cases hab : strLess (a.data.take sym_len.toNat) (b.data.take sym_len.toNat) with
  | true => exact Or.inr ((strLess_iff_lex _ _).mp hab)
  | false => exact Or.inl (strLess_connex _ _ hab hba)

/-- Witness for C18: four lines and `sym_len = 3`. -/
theorem C18_save_sorted_permutation_witness :
    (Outputter.save ["BBB,0,2,10,10", "AT,0,1,1,1", "AAA,50,15,53,60", "AT&T,0,1,1,1"] 3).Perm
      ["BBB,0,2,10,10", "AT,0,1,1,1", "AAA,50,15,53,60", "AT&T,0,1,1,1"] ∧
    List.Chain' (fun a b =>
        a.data.take (3 : Int).toNat = b.data.take (3 : Int).toNat ∨
        List.Lex (fun x y : Char => x.toNat < y.toNat)
          (a.data.take (3 : Int).toNat) (b.data.take (3 : Int).toNat))
      (Outputter.save ["BBB,0,2,10,10", "AT,0,1,1,1", "AAA,50,15,53,60", "AT&T,0,1,1,1"] 3) :=
  C18_save_sorted_permutation
    ["BBB,0,2,10,10", "AT,0,1,1,1", "AAA,50,15,53,60", "AT&T,0,1,1,1"] 3
    (by decide) (by decide)

/-- Claim C19: for every finite sequence of records and every symbol `s`,
the statistic held for `s` after folding the whole sequence from the empty
state is the one obtained by folding only the records whose symbol is `s`;
and `addTradeEntry` for a record leaves the statistic of every other symbol
unchanged. -/
theorem C19_interleaving_independence (rs : List TradeEntry) (s : String)
    (S : Storage) (e : TradeEntry) (hne : e.symbol_ ≠ s) :
    (foldEntries Storage.empty rs).hashmap_.find s
      = (foldEntries Storage.empty (rs.filter fun r => r.symbol_ = s)).hashmap_.find s ∧
    (StatisticsCalculator.addTradeEntry S e).hashmap_.find s = S.hashmap_.find s := by
  constructor
  · rw [find_foldEntries, find_foldEntries, List.filter_filter]
    simp
  · rw [find_addTradeEntry, if_neg hne]

/-- Witness for C19: the spec's example, symbol `AAA`, and a `BBB` record
added to a state tracking `AAA`. -/
theorem C19_interleaving_independence_witness :
    (foldEntries Storage.empty [TradeEntry.ctor 100 "AAA" 10 50,
        TradeEntry.ctor 90 "BBB" 2 10, TradeEntry.ctor 150 "AAA" 5 60]).hashmap_.find "AAA"
      = (foldEntries Storage.empty ([TradeEntry.ctor 100 "AAA" 10 50,
          TradeEntry.ctor 90 "BBB" 2 10, TradeEntry.ctor 150 "AAA" 5 60].filter
            fun r => r.symbol_ = "AAA")).hashmap_.find "AAA" ∧
    (StatisticsCalculator.addTradeEntry (Storage.mk [("AAA", Statistics.ctor 100 10 50)])
        (TradeEntry.ctor 90 "BBB" 2 10)).hashmap_.find "AAA"
      = (Storage.mk [("AAA", Statistics.ctor 100 10 50)]).hashmap_.find "AAA" :=
  C19_interleaving_independence [TradeEntry.ctor 100 "AAA" 10 50,
    TradeEntry.ctor 90 "BBB" 2 10, TradeEntry.ctor 150 "AAA" 5 60] "AAA"
    (Storage.mk [("AAA", Statistics.ctor 100 10 50)]) (TradeEntry.ctor 90 "BBB" 2 10)
    (by decide)

/-- Claim C20: for every non-empty sequence of records of a single symbol
whose timestamps are non-decreasing in arrival order, after folding from the
empty state `maxTimeGap` is at most `lastTimestamp` minus the timestamp of
the first record (which is at most `lastTimestamp`), with equality when the
sequence has at most two records. -/
theorem C20_gap_bound (s : String) (first : TradeEntry) (rest : List TradeEntry)
    (h : ∀ r ∈ first :: rest, r.symbol_ = s ∧ r.WellTyped)
    (hsorted : List.Chain' (· ≤ ·) ((first :: rest).map fun r => r.timestamp_)) :
    ∃ st, (foldEntries Storage.empty (first :: rest)).hashmap_.find s = some st ∧
      first.timestamp_ ≤ st.lastTimestamp_ ∧
      st.maxTimeGap_ ≤ st.lastTimestamp_ - first.timestamp_ ∧
      ((first :: rest).length ≤ 2 →
        st.maxTimeGap_ = st.lastTimestamp_ - first.timestamp_) := by
  refine ⟨_, find_foldEntries_single s first rest (fun r hr => (h r hr).1), ?_⟩
  have hf : isUInt64 first.timestamp_ := (h first (List.mem_cons_self _ _)).2.1
  obtain ⟨ha, hb⟩ := gap_bound_updStats rest
    (Statistics.ctor first.timestamp_ first.quantity_ first.price_) first.timestamp_
    hf (fun r hr => (h r (List.mem_cons_of_mem _ hr)).2.1) hsorted (le_refl _)
    (Nat.zero_le _)
  refine ⟨ha, hb, ?_⟩
  intro hlen
  cases rest with
  | nil => simp [updStats, Statistics.ctor]
  | cons e rest' =>
    cases rest' with
    | nil =>
      have he : isUInt64 e.timestamp_ :=
        (h e (List.mem_cons_of_mem _ (List.mem_cons_self _ _))).2.1
      have hle : first.timestamp_ ≤ e.timestamp_ := by
        simp only [List.map_cons, List.map_nil, List.chain'_cons, List.chain'_singleton,
          and_true] at hsorted
        exact hsorted
      show ((Statistics.ctor first.timestamp_ first.quantity_ first.price_).update
        e.timestamp_ e.quantity_ e.price_).maxTimeGap_ = e.timestamp_ - first.timestamp_
      rw [maxTimeGap_update]
      show max 0 (toUInt64 ((e.timestamp_ : Int) - (first.timestamp_ : Int))) = _
      rw [toUInt64_sub_eq_timeGap hf he]
      unfold timeGap
      rw [if_pos hle]
      exact max_eq_right (Nat.zero_le _)
    | cons e' rest'' => simp at hlen

/-- Witness for C20: the two `AAA` records of the spec's example. -/
theorem C20_gap_bound_witness :
    ∃ st, (foldEntries Storage.empty [TradeEntry.ctor 100 "AAA" 10 50,
        TradeEntry.ctor 150 "AAA" 5 60]).hashmap_.find "AAA" = some st ∧
      (TradeEntry.ctor 100 "AAA" 10 50).timestamp_ ≤ st.lastTimestamp_ ∧
      st.maxTimeGap_ ≤ st.lastTimestamp_ - (TradeEntry.ctor 100 "AAA" 10 50).timestamp_ ∧
      ([TradeEntry.ctor 100 "AAA" 10 50, TradeEntry.ctor 150 "AAA" 5 60].length ≤ 2 →
        st.maxTimeGap_ = st.lastTimestamp_ - (TradeEntry.ctor 100 "AAA" 10 50).timestamp_) :=
  C20_gap_bound "AAA" (TradeEntry.ctor 100 "AAA" 10 50) [TradeEntry.ctor 150 "AAA" 5 60]
    (by decide) (by simp [TradeEntry.ctor])

end streamingtrade
